import Mathlib

/-!
# viewscount: view deduplication tracker

A shallow embedding of `viewscount.go` and `databaseAdapter.go`.

* `time.Time` is an integer count of nanoseconds on one clock; `time.Duration`
  is a signed 64-bit count of nanoseconds, so every arithmetic operation on a
  duration is wrapped by `wrap64`, and `Time.Sub` saturates as in Go.
* The clock is explicit: each place where the source reads `time.Now()` or
  `time.Since` takes the reading as an argument.
* `map[string][]ViewRequest` is an association list read through `mapGet`;
  `mapSet` and `mapDelete` are Go's assignment and `delete`.
* The database is a function from the `Exec` arguments to the returned error
  (`none` is `nil`); the calls made are returned as a log.
* The mutex is not modelled: every method is one atomic step. The sweep that
  `HandleView` starts in a goroutine runs at a moment of its own, so `HandleView`
  takes the clock readings of the sweeps that run inside it.
-/

namespace Viewscount

/-! ## Time -/

/-! A `time.Time` is an `Int`, nanoseconds on one clock. A `time.Duration` is an
`Int` holding an `int64` count of nanoseconds. -/

/-- Smallest `int64`. -/
def minDuration : Int := -9223372036854775808

/-- Largest `int64`. -/
def maxDuration : Int := 9223372036854775807

/-- Two's-complement wrap of an integer to `int64`. -/
def wrap64 (x : Int) : Int :=
  (x + 9223372036854775808) % 18446744073709551616 - 9223372036854775808

/-- Go `time.Minute`. -/
def Minute : Int := 60000000000

/-- Go `a * b` on `int64`. -/
def durMul (a b : Int) : Int := wrap64 (a * b)

/-- Go unary `-a` on `int64`. -/
def durNeg (a : Int) : Int := wrap64 (-a)

/-- Go `t.Add(d)`. -/
def timeAdd (t : Int) (d : Int) : Int := t + d

/-- Go `t.Sub(u)`: the difference, saturated to the range of `Duration`. -/
def timeSub (t u : Int) : Int :=
  if t - u > maxDuration then maxDuration
  else if t - u < minDuration then minDuration
  else t - u

/-- Go `time.Since(t)` when the clock reads `now`. -/
def timeSince (now t : Int) : Int := timeSub now t

/-- Go `t.After(u)`. -/
def timeAfter (t u : Int) : Bool := decide (u < t)

/-! ## Errors -/

/-- Go `error` values: a plain error, or one made by `fmt.Errorf` with `%w`. -/
inductive GoError where
  | plain (msg : String) : GoError
  | wrapped (msg : String) (inner : GoError) : GoError
  deriving DecidableEq, Repr

/-- Go `err.Error()`. -/
def GoError.Error : GoError → String
  | .plain msg => msg
  | .wrapped msg _ => msg

/-- Go `errors.Unwrap(err)`. -/
def GoError.Unwrap : GoError → Option GoError
  | .plain _ => none
  | .wrapped _ inner => some inner

/-- Go `fmt.Errorf(ctx + "%w", err)`. -/
def fmtErrorfW (ctx : String) (err : GoError) : GoError :=
  .wrapped (ctx ++ err.Error) err

/-! ## Data model -/

/-- One `Exec` call: the query text and the bound arguments. -/
structure ExecCall where
  query : String
  args : List Int
  deriving DecidableEq, Repr

/-- The `DBExecutor` interface: `Exec(query, args...)`, keeping the error only. -/
abbrev DBExecutor := String → List Int → Option GoError

/-- Source struct `ViewRequest`. -/
structure ViewRequest where
  IP : String
  UserAgent : String
  ObjectID : Int
  TableName : String
  Timestamp : Int
  deriving DecidableEq, Repr

/-- Go `map[string][]ViewRequest`. -/
abbrev History := List (String × List ViewRequest)

/-- Go `m[key]` with the presence flag. -/
def mapGet : History → String → Option (List ViewRequest)
  | [], _ => none
  | (k, v) :: rest, key => if k = key then some v else mapGet rest key

/-- Go `delete(m, key)`. -/
def mapDelete (m : History) (key : String) : History :=
  m.filter (fun e => decide (e.1 ≠ key))

/-- Go `m[key] = v`. -/
def mapSet (m : History) (key : String) (v : List ViewRequest) : History :=
  (key, v) :: mapDelete m key

/-- The keys a `range` over the map visits, each once. -/
def mapKeys (m : History) : List String :=
  (m.map Prod.fst).dedup

/-- Go `m[key]` as a value: the nil slice when the key is absent. -/
def mapIndex (m : History) (key : String) : List ViewRequest :=
  (mapGet m key).getD []

/-- Source struct `ViewTracker` (without the mutex). -/
structure ViewTracker where
  viewHistory : History
  db : DBExecutor
  minutesGap : Int

/-- The dynamic type of the `db interface{}` handed to `NewViewTracker`. -/
inductive DBHandle where
  | sqlDB (exec : DBExecutor) : DBHandle
  | pgxPool (exec : DBExecutor) : DBHandle
  | other : DBHandle

/-- Source `NewPgxAdapter(pool)` with `PgxAdapter.Exec`: the pool's error is
returned as it is. -/
def NewPgxAdapter (poolExec : DBExecutor) : DBExecutor :=
  fun query args =>
    match poolExec query args with
    | some err => some err
    | none => none

/-- Source `NewViewTracker`; the panic is `Except.error`. -/
def NewViewTracker (db : DBHandle) (minutesGap : Int) : Except String ViewTracker :=
  match db with
  | .sqlDB d => .ok ⟨[], d, minutesGap⟩
  | .pgxPool d => .ok ⟨[], NewPgxAdapter d, minutesGap⟩
  | .other => .error "unsupported database type"

/-! ## Request side -/

/-- The parts of `*http.Request` the tracker reads. `Header` is `Header.Get`. -/
structure Request where
  Header : String → String
  RemoteAddr : String

/-- Go `r.UserAgent()`. -/
def Request.UserAgent (r : Request) : String := r.Header "User-Agent"

/-- Go `unicode.IsSpace`. -/
def isSpace (c : Char) : Bool :=
  let n := c.toNat
  (9 ≤ n && n ≤ 13) || n = 32 || n = 133 || n = 160 || n = 5760 ||
  (8192 ≤ n && n ≤ 8202) || n = 8232 || n = 8233 || n = 8239 || n = 8287 || n = 12288

/-- Go `strings.TrimSpace`. -/
def stringsTrimSpace (s : String) : String :=
  String.mk ((s.data.dropWhile isSpace).reverse.dropWhile isSpace).reverse

/-- Go `strings.Split(s, sep)` for a one-character separator, on characters. -/
def splitChars (sep : Char) : List Char → List (List Char)
  | [] => [[]]
  | c :: cs =>
    if c = sep then [] :: splitChars sep cs
    else
      match splitChars sep cs with
      | [] => [[c]]
      | h :: t => (c :: h) :: t

/-- Go `strings.Split(s, ",")`. -/
def stringsSplitComma (s : String) : List String :=
  (splitChars ',' s.data).map String.mk

/-- Index of the last `c` in `s`, as Go `LastIndexByteString` (none for -1). -/
def lastIndexOf (c : Char) (s : List Char) : Option Nat :=
  match s.reverse.indexOf? c with
  | none => none
  | some j => some (s.length - 1 - j)

/-- Go `net.SplitHostPort`, keeping the host part; `none` is an error. -/
def netSplitHostPort (hostport : String) : Option String :=
  let hp := hostport.data
  match lastIndexOf ':' hp with
  | none => none
  | some i =>
    if hp.head? = some '[' then
      match hp.indexOf? ']' with
      | none => none
      | some e =>
        if e + 1 = hp.length then none
        else if e + 1 = i then
          let host := (hp.take e).drop 1
          if ((hp.drop 1).indexOf? '[').isSome then none
          else if ((hp.drop (e + 1)).indexOf? ']').isSome then none
          else some (String.mk host)
        else none
    else
      let host := hp.take i
      if (host.indexOf? ':').isSome then none
      else if (hp.indexOf? '[').isSome then none
      else if (hp.indexOf? ']').isSome then none
      else some (String.mk host)

/-- Source `extractIP`. -/
def extractIP (r : Request) : String :=
  let forwardedFor := r.Header "X-Forwarded-For"
  if forwardedFor ≠ "" then
    let ips := stringsSplitComma forwardedFor
    stringsTrimSpace (ips.headD "")
  else
    let realIP := r.Header "X-Real-IP"
    if realIP ≠ "" then realIP
    else
      match netSplitHostPort r.RemoteAddr with
      | none => r.RemoteAddr
      | some ip => ip

/-! ## Tracker operations -/

/-- Go `%d` of an `int`. -/
def fmtD (i : Int) : String := toString i

/-- The key `fmt.Sprintf("%s:%s:%d:%s", IP, UserAgent, ObjectID, TableName)`
built by `IsOrganicView` and `TrackView`. -/
def viewKey (req : ViewRequest) : String :=
  req.IP ++ ":" ++ req.UserAgent ++ ":" ++ fmtD req.ObjectID ++ ":" ++ req.TableName

/-- The query text built by `IncrementViewCount`. -/
def incrementQuery (tableName : String) : String :=
  "UPDATE " ++ tableName ++ " SET view_count = view_count + 1 WHERE id = $1"

/-- Source `IncrementViewCount`: the returned error and the `Exec` calls made. -/
def IncrementViewCount (vt : ViewTracker) (tableName : String) (id : Int) :
    Option GoError × List ExecCall :=
  let query := incrementQuery tableName
  (vt.db query [id], [⟨query, [id]⟩])

/-- The value of `vt.minutesGap * time.Minute`. -/
def window (vt : ViewTracker) : Int := durMul vt.minutesGap Minute

/-- The value of `time.Now().Add(-vt.minutesGap * time.Minute)`. -/
def cutoffAt (vt : ViewTracker) (now : Int) : Int :=
  timeAdd now (durMul (durNeg vt.minutesGap) Minute)

/-- The inner loop of `cleanOldRecords`: the requests kept for one key. -/
def keepRecent (cutoff : Int) (requests : List ViewRequest) : List ViewRequest :=
  requests.foldl
    (fun newRequests req =>
      if timeAfter req.Timestamp cutoff then newRequests ++ [req] else newRequests)
    []

/-- One iteration of the outer loop of `cleanOldRecords`. -/
def cleanKey (cutoff : Int) (m : History) (key : String) : History :=
  match mapGet m key with
  | none => m
  | some requests =>
    let newRequests := keepRecent cutoff requests
    if newRequests.length = 0 then mapDelete m key else mapSet m key newRequests

/-- Source `cleanOldRecords`, with the clock reading `now`. -/
def cleanOldRecords (vt : ViewTracker) (now : Int) : ViewTracker :=
  let cutoff := cutoffAt vt now
  { vt with viewHistory := (mapKeys vt.viewHistory).foldl (cleanKey cutoff) vt.viewHistory }

/-- Source `IsOrganicView`, with the clock reading `now` at `time.Since`. -/
def IsOrganicView (vt : ViewTracker) (req : ViewRequest) (now : Int) : Bool :=
  let key := viewKey req
  let requests := mapIndex vt.viewHistory key
  if h : requests.length = 0 then true
  else
    let lastRequest := requests.get ⟨requests.length - 1, Nat.sub_one_lt h⟩
    decide (timeSince now lastRequest.Timestamp > window vt)

/-- Source `TrackView`. -/
def TrackView (vt : ViewTracker) (req : ViewRequest) : ViewTracker :=
  let key := viewKey req
  { vt with viewHistory := mapSet vt.viewHistory key (mapIndex vt.viewHistory key ++ [req]) }

/-- What one `HandleView` call does: the tracker afterwards, the returned
error and the `Exec` calls made. -/
structure HandleViewResult where
  vt : ViewTracker
  err : Option GoError
  execLog : List ExecCall

/-- The `ViewRequest` built at the start of `HandleView`. -/
def mkRequest (r : Request) (tableName : String) (id : Int) (now : Int) : ViewRequest :=
  ⟨extractIP r, r.UserAgent, id, tableName, now⟩

/-- The sweeps that take the lock one after another, at the given clock readings. -/
def runSweeps (vt : ViewTracker) (times : List Int) : ViewTracker :=
  times.foldl cleanOldRecords vt

/-- Source `HandleView`. `now` is the reading of `time.Now()` stored in the
request, `since` the later reading inside `IsOrganicView`. Line 131 starts
`cleanOldRecords` in a goroutine and goes on, so that sweep (and any sweep
started by an earlier call that has not run yet) takes the lock at a moment of
its own: `pre` holds the clock readings of the sweeps that run before the
decision of line 133, `mid` of those that run between the decision and
`TrackView`. A sweep that runs after the call has returned is a step of its own. -/
def HandleView (vt : ViewTracker) (r : Request) (tableName : String) (id : Int)
    (now since : Int) (pre mid : List Int) : HandleViewResult :=
  let req := mkRequest r tableName id now
  let decided := runSweeps vt pre
  if IsOrganicView decided req since then
    match IncrementViewCount decided tableName id with
    | (some err, log) =>
      ⟨runSweeps decided mid, some (fmtErrorfW "failed to increment view count: " err), log⟩
    | (none, log) => ⟨TrackView (runSweeps decided mid) req, none, log⟩
  else
    ⟨TrackView (runSweeps decided mid) req, none, []⟩

/-- What one iteration of the sweep leaves of the entry it visits. -/
def sweepEntry (cutoff : Int) : Option (List ViewRequest) → Option (List ViewRequest)
  | none => none
  | some requests =>
    if (keepRecent cutoff requests).length = 0 then none else some (keepRecent cutoff requests)

/-! ## Sequential runs -/

/-- One step of a sequential run: a `HandleView` call with its two clock
readings and the sweeps that run inside it, or a sweep that runs between calls. -/
inductive Step where
  | view (r : Request) (tableName : String) (id : Int) (now since : Int)
      (pre mid : List Int) : Step
  | sweep (t : Int) : Step

/-- The clock readings of a step, in the order they are made. -/
def Step.readings : Step → List Int
  | .view _ _ _ now since pre mid => now :: (pre ++ since :: mid)
  | .sweep t => [t]

/-- The clock readings of a run, in the order they are made. -/
def readingsOf : List Step → List Int
  | [] => []
  | st :: rest => st.readings ++ readingsOf rest

/-- The clock readings of the sweeps that run in a step. -/
def Step.sweeps : Step → List Int
  | .view _ _ _ _ _ pre mid => pre ++ mid
  | .sweep t => [t]

/-- The record of one `HandleView` call of a run: its key, the time it stamped
on its event, the clock reading of its decision, and whether it called `Exec`. -/
structure CallRecord where
  key : String
  time : Int
  since : Int
  incremented : Bool
  deriving DecidableEq, Repr

/-- A run so far: the tracker and the `HandleView` calls made, in call order. -/
structure RunState where
  vt : ViewTracker
  calls : List CallRecord

/-- One step of a run. -/
def stepRun (s : RunState) : Step → RunState
  | .view r tableName id now since pre mid =>
    let res := HandleView s.vt r tableName id now since pre mid
    ⟨res.vt, s.calls ++
      [⟨viewKey (mkRequest r tableName id now), now, since, decide (res.execLog ≠ [])⟩]⟩
  | .sweep t => ⟨cleanOldRecords s.vt t, s.calls⟩

/-- A sequential run from a tracker. -/
def run (vt : ViewTracker) (steps : List Step) : RunState :=
  steps.foldl stepRun ⟨vt, []⟩

/-- The calls of a run that invoked the counter increment. -/
def RunState.increments (s : RunState) : List CallRecord :=
  s.calls.filter (fun c => c.incremented)

/-- The key of a `HandleView` step; a sweep has none. -/
def Step.key : Step → Option String
  | .view r tableName id now _ _ _ => some (viewKey (mkRequest r tableName id now))
  | .sweep _ => none

/-- The event a `HandleView` step builds; a sweep has none. -/
def Step.event : Step → Option ViewRequest
  | .view r tableName id now _ _ _ => some (mkRequest r tableName id now)
  | .sweep _ => none

/-- The stamped time and the decision time of a `HandleView` step. -/
def Step.times : Step → Option (Int × Int)
  | .view _ _ _ now since _ _ => some (now, since)
  | .sweep _ => none

/-- Stated from the spec: the verdicts of successive views of one key, each
given by its stamped time and its decision time, with window `w`, when the
previous view (if any) was stamped `prev`. The first view ever is organic; a
later one is organic iff the time from the stamp of the view just before it to
its own decision is strictly greater than `w`. -/
def specDecisions (w : Int) : Option Int → List (Int × Int) → List Bool
  | _, [] => []
  | none, (t, _) :: ts => true :: specDecisions w (some t) ts
  | some prev, (t, d) :: ts => decide (d - prev > w) :: specDecisions w (some t) ts

/-- The last of the clock readings `times` made after the reading `c`. -/
def clockAfter (c : Int) (times : List Int) : Int :=
  times.foldl (fun _ t => t) c

/-- The invariant of a sequential run with window `w` at clock reading `c`:
every call so far stamped a time no later than `c`, and while less than `w`
has passed since that time, the history of its key ends with an event no older
than it. -/
def RunInv (w : Int) (calls : List CallRecord) (vt : ViewTracker) (c : Int) : Prop :=
  ∀ a ∈ calls, a.time ≤ c ∧
    (c - a.time < w →
      ∃ last, (mapIndex vt.viewHistory a.key).getLast? = some last ∧
        a.time ≤ last.Timestamp)

/-- The invariant of a run of views of one key with window `w` at clock reading
`c`: before the first call the key has no history; afterwards every event of the
key is no younger than the stamp of the latest call, the history ends with that
stamp if it is not empty, and it is not empty while less than `w` has passed. -/
def KeyInv (w : Int) (key : String) (calls : List CallRecord) (vt : ViewTracker)
    (c : Int) : Prop :=
  (calls.getLast? = none → mapIndex vt.viewHistory key = []) ∧
  ∀ a, calls.getLast? = some a →
    a.time ≤ c ∧
    (∀ e ∈ mapIndex vt.viewHistory key, e.Timestamp ≤ a.time) ∧
    (∀ last, (mapIndex vt.viewHistory key).getLast? = some last →
      last.Timestamp = a.time) ∧
    (c - a.time < w → mapIndex vt.viewHistory key ≠ [])

/-! ## Sample values -/

/-- A database whose `Exec` always succeeds. -/
def okDB : DBExecutor := fun _ _ => none

/-- A database whose `Exec` always fails. -/
def downDB : DBExecutor := fun _ _ => some (.plain "connection refused")

/-- A request with no forwarding headers and no user agent, from 10.0.0.1. -/
def sampleRequest : Request := ⟨fun _ => "", "10.0.0.1:4000"⟩

/-- The key of `sampleRequest` viewing object 7 of table posts. -/
def sampleKey : String := "10.0.0.1::7:posts"

/-- The event of `sampleRequest` viewing object 7 of table posts at time `t`. -/
def sampleEvent (t : Int) : ViewRequest := ⟨"10.0.0.1", "", 7, "posts", t⟩

/-- A tracker with a one-minute gap whose sample key was seen at 0 and at 100. -/
def seenTwice : ViewTracker := ⟨[(sampleKey, [sampleEvent 0, sampleEvent 100])], okDB, 1⟩

/-- An event of another visitor, 10.0.0.2, viewing the same object at time `t`. -/
def otherEvent (t : Int) : ViewRequest := ⟨"10.0.0.2", "", 7, "posts", t⟩

/-- As `seenTwice`, with one more key in the map. -/
def crowded : ViewTracker :=
  ⟨[(viewKey (otherEvent 3), [otherEvent 3]), (sampleKey, [sampleEvent 0, sampleEvent 100])],
    okDB, 1⟩

/-- A fresh tracker with a thirty-minute gap over a database that is down. -/
def downTracker : ViewTracker := ⟨[], downDB, 30⟩

/-- A view at 0 and a second view of the same key exactly one minute later;
the sweep each call starts runs before its decision. -/
def boundarySteps : List Step :=
  [.view sampleRequest "posts" 7 0 0 [0] [],
    .view sampleRequest "posts" 7 60000000000 60000000000 [60000000000] []]

/-- A view at 0 and a second view of the same key stamped one nanosecond less
than a minute later but decided two nanoseconds after that; no sweep runs. -/
def lateDecisionSteps : List Step :=
  [.view sampleRequest "posts" 7 0 0 [] [],
    .view sampleRequest "posts" 7 59999999999 60000000001 [] []]

/-- Views of one key at 0, 10 and 31 minutes, before any sweep has run. -/
def scenarioSteps : List Step :=
  [.view sampleRequest "posts" 7 0 0 [] [],
    .view sampleRequest "posts" 7 600000000000 600000000000 [] [],
    .view sampleRequest "posts" 7 1860000000000 1860000000000 [] []]

/-- Views of one key at 0, 10 and 31 minutes; the sweep each call starts runs
right after the call has recorded its event. -/
def sweptScenarioSteps : List Step :=
  [.view sampleRequest "posts" 7 0 0 [] [], .sweep 0,
    .view sampleRequest "posts" 7 600000000000 600000000000 [] [], .sweep 600000000000,
    .view sampleRequest "posts" 7 1860000000000 1860000000000 [] [],
    .sweep 1860000000000]

/-- A tracker with a one-minute gap and an event of another visitor at 0. -/
def staleOther : ViewTracker := ⟨[(viewKey (otherEvent 0), [otherEvent 0])], downDB, 1⟩

/-- A tracker with a one-minute gap whose sample key holds an event at 1000
minutes followed by an event at 0. -/
def outOfOrder : ViewTracker :=
  ⟨[(sampleKey, [sampleEvent 60000000000000, sampleEvent 0])], okDB, 1⟩

/-! ## Reachable states -/

/-- One method call on a tracker, with the clock readings it makes. -/
inductive Op where
  | trackView (req : ViewRequest) : Op
  | cleanOldRecords (now : Int) : Op
  | isOrganicView (req : ViewRequest) (now : Int) : Op
  | handleView (r : Request) (tableName : String) (id : Int) (now since : Int)
      (pre mid : List Int) : Op

/-- The tracker after one method call. `IsOrganicView` only reads. -/
def applyOp (vt : ViewTracker) : Op → ViewTracker
  | .trackView req => TrackView vt req
  | .cleanOldRecords now => cleanOldRecords vt now
  | .isOrganicView _ _ => vt
  | .handleView r tableName id now since pre mid =>
    (HandleView vt r tableName id now since pre mid).vt

/-- A database that fails on the table `posts` only. -/
def postsDownDB : DBExecutor :=
  fun query _ => if query = incrementQuery "posts" then some (.plain "locked") else none

/-- A mixed series of calls: views, a failed view, a record, a read and sweeps. -/
def sampleOps : List Op :=
  [.handleView sampleRequest "users" 7 0 0 [0] [],
    .handleView sampleRequest "posts" 7 5 5 [] [6],
    .trackView (otherEvent 10), .isOrganicView (sampleEvent 11) 11,
    .cleanOldRecords 60000000005,
    .handleView sampleRequest "users" 7 60000000007 60000000007 [60000000007] [],
    .cleanOldRecords 90000000000]

/-- A request that came through two proxies. -/
def forwardedRequest : Request :=
  ⟨fun name => if name = "X-Forwarded-For" then " 203.0.113.9 , 10.0.0.1" else "",
    "10.0.0.1:4000"⟩

/-- A request with only the `X-Real-IP` header. -/
def realIPRequest : Request :=
  ⟨fun name => if name = "X-Real-IP" then "198.51.100.7" else "", "10.0.0.1:4000"⟩

/-- A request whose `RemoteAddr` has no port. -/
def bareRequest : Request := ⟨fun _ => "", "localhost"⟩

/-- A view from the address fe80::1 with user agent `agent`. -/
def colonEvent : ViewRequest := ⟨"fe80::1", "agent", 7, "posts", 0⟩

/-- A view from the address fe80 with user agent `:1:agent`. -/
def shiftedEvent : ViewRequest := ⟨"fe80", ":1:agent", 7, "posts", 50⟩

/-- A tracker whose `minutesGap` is `30 * time.Minute`. -/
def scaledTwice : ViewTracker := ⟨[], okDB, 1800000000000⟩

/-! ## Duration arithmetic -/

theorem wrap64_range (x : Int) : minDuration ≤ wrap64 x ∧ wrap64 x ≤ maxDuration := by
  unfold wrap64 minDuration maxDuration
  omega

theorem window_range (vt : ViewTracker) :
    minDuration ≤ window vt ∧ window vt ≤ maxDuration :=
  wrap64_range _

theorem window_ne_max (vt : ViewTracker) : window vt ≠ maxDuration := by
  unfold window durMul wrap64 Minute maxDuration
  omega

theorem window_of_small (vt : ViewTracker)
    (h1 : -153722867 ≤ vt.minutesGap) (h2 : vt.minutesGap ≤ 153722867) :
    window vt = vt.minutesGap * 60000000000 := by
  unfold window durMul wrap64 Minute
  omega

theorem cutoffAt_eq (vt : ViewTracker) (now : Int) (h : window vt ≠ minDuration) :
    cutoffAt vt now = now - window vt := by
  unfold cutoffAt timeAdd
  unfold window at *
  unfold durMul durNeg wrap64 Minute at *
  unfold minDuration at h
  omega

theorem cutoffAt_eq_add_neg (vt : ViewTracker) (now : Int) :
    cutoffAt vt now = timeAdd now (durNeg (window vt)) := by
  unfold cutoffAt timeAdd window
  unfold durMul durNeg wrap64 Minute
  omega

theorem timeSince_gt_iff (now t w : Int) (h1 : minDuration ≤ w) (h2 : w ≤ maxDuration)
    (h3 : w ≠ maxDuration) : timeSince now t > w ↔ now - t > w := by
  unfold timeSince timeSub
  unfold maxDuration at *
  unfold minDuration at *
  split_ifs <;> omega

theorem timeSince_gt_window (vt : ViewTracker) (now t : Int) :
    timeSince now t > window vt ↔ now - t > window vt :=
  timeSince_gt_iff now t (window vt) (window_range vt).1 (window_range vt).2 (window_ne_max vt)

/-! ## The map -/

theorem mapGet_mapDelete_self (m : History) (key : String) :
    mapGet (mapDelete m key) key = none := by
  induction m with
  | nil => rfl
  | cons e rest ih =>
    obtain ⟨k, v⟩ := e
    by_cases h : k = key
    · simpa [mapDelete, List.filter_cons, h] using ih
    · simpa [mapDelete, List.filter_cons, h, mapGet] using ih

theorem mapGet_mapDelete_ne (m : History) (key other : String) (hne : other ≠ key) :
    mapGet (mapDelete m key) other = mapGet m other := by
  induction m with
  | nil => rfl
  | cons e rest ih =>
    obtain ⟨k, v⟩ := e
    by_cases h : k = key
    · subst h
      have hk : ¬ k = other := fun hko => hne hko.symm
      simpa [mapDelete, List.filter_cons, mapGet, hk] using ih
    · by_cases hk : k = other
      · subst hk
        simp [mapDelete, List.filter_cons, h, mapGet]
      · simpa [mapDelete, List.filter_cons, h, mapGet, hk] using ih

theorem mapGet_mapSet_self (m : History) (key : String) (v : List ViewRequest) :
    mapGet (mapSet m key v) key = some v := by
  simp [mapSet, mapGet]

theorem mapGet_mapSet_ne (m : History) (key other : String) (v : List ViewRequest)
    (hne : other ≠ key) : mapGet (mapSet m key v) other = mapGet m other := by
  have hk : key ≠ other := fun h => hne h.symm
  simp [mapSet, mapGet, hk, mapGet_mapDelete_ne m key other hne]

theorem mapGet_eq_none_of_not_mem (m : History) (key : String)
    (h : key ∉ mapKeys m) : mapGet m key = none := by
  induction m with
  | nil => rfl
  | cons e rest ih =>
    obtain ⟨k, v⟩ := e
    simp only [mapKeys, List.mem_dedup, List.map_cons, List.mem_cons, not_or] at h ih
    have hk : k ≠ key := fun hk => h.1 hk.symm
    simp only [mapGet, hk, if_false]
    exact ih h.2

theorem mapKeys_nodup (m : History) : (mapKeys m).Nodup :=
  List.nodup_dedup _

theorem keepRecent_eq_filter (cutoff : Int) (requests : List ViewRequest) :
    keepRecent cutoff requests =
      requests.filter (fun req => timeAfter req.Timestamp cutoff) := by
  have gen : ∀ (rs acc : List ViewRequest),
      rs.foldl (fun newRequests req =>
        if timeAfter req.Timestamp cutoff then newRequests ++ [req] else newRequests) acc
      = acc ++ rs.filter (fun req => timeAfter req.Timestamp cutoff) := by
    intro rs
    induction rs with
    | nil => intro acc; simp
    | cons r rest ih =>
      intro acc
      by_cases h : timeAfter r.Timestamp cutoff = true
      · simp [List.foldl_cons, h, ih, List.filter_cons]
      · simp [List.foldl_cons, h, ih, List.filter_cons]
  simpa [keepRecent] using gen requests []

theorem keepRecent_idem (cutoff : Int) (requests : List ViewRequest) :
    keepRecent cutoff (keepRecent cutoff requests) = keepRecent cutoff requests := by
  simp [keepRecent_eq_filter, List.filter_filter]

theorem mem_keepRecent (cutoff : Int) (requests : List ViewRequest) (e : ViewRequest) :
    e ∈ keepRecent cutoff requests ↔ e ∈ requests ∧ cutoff < e.Timestamp := by
  simp [keepRecent_eq_filter, List.mem_filter, timeAfter]

theorem mapGet_cleanKey_self (cutoff : Int) (m : History) (key : String) :
    mapGet (cleanKey cutoff m key) key = sweepEntry cutoff (mapGet m key) := by
  unfold cleanKey
  cases hg : mapGet m key with
  | none => simp [sweepEntry, hg]
  | some requests =>
    by_cases hl : (keepRecent cutoff requests).length = 0
    · simp [sweepEntry, hl, mapGet_mapDelete_self]
    · simp [sweepEntry, hl, mapGet_mapSet_self]

theorem mapGet_cleanKey_ne (cutoff : Int) (m : History) (key other : String)
    (hne : other ≠ key) : mapGet (cleanKey cutoff m key) other = mapGet m other := by
  unfold cleanKey
  cases hg : mapGet m key with
  | none => rfl
  | some requests =>
    by_cases hl : (keepRecent cutoff requests).length = 0
    · simp [hl, mapGet_mapDelete_ne m key other hne]
    · simp [hl, mapGet_mapSet_ne m key other _ hne]

theorem mapGet_foldl_cleanKey (cutoff : Int) (keys : List String) (hnd : keys.Nodup)
    (m : History) (key : String) :
    mapGet (keys.foldl (cleanKey cutoff) m) key =
      if key ∈ keys then sweepEntry cutoff (mapGet m key) else mapGet m key := by
  induction keys generalizing m with
  | nil => simp
  | cons k rest ih =>
    rw [List.nodup_cons] at hnd
    rw [List.foldl_cons, ih hnd.2]
    by_cases hk : key = k
    · subst hk
      simp [hnd.1, mapGet_cleanKey_self]
    · have hk2 : ¬ k = key := fun h => hk h.symm
      simp [hk, mapGet_cleanKey_ne cutoff m k key hk]

theorem mapGet_cleanOldRecords (vt : ViewTracker) (now : Int) (key : String) :
    mapGet (cleanOldRecords vt now).viewHistory key =
      sweepEntry (cutoffAt vt now) (mapGet vt.viewHistory key) := by
  unfold cleanOldRecords
  simp only
  rw [mapGet_foldl_cleanKey _ _ (mapKeys_nodup _)]
  by_cases hk : key ∈ mapKeys vt.viewHistory
  · simp [hk]
  · simp [hk, mapGet_eq_none_of_not_mem _ _ hk, sweepEntry]

theorem cleanOldRecords_db (vt : ViewTracker) (now : Int) :
    (cleanOldRecords vt now).db = vt.db ∧
      (cleanOldRecords vt now).minutesGap = vt.minutesGap := ⟨rfl, rfl⟩

theorem sweepEntry_idem (cutoff : Int) (o : Option (List ViewRequest)) :
    sweepEntry cutoff (sweepEntry cutoff o) = sweepEntry cutoff o := by
  cases o with
  | none => rfl
  | some requests =>
    by_cases hl : (keepRecent cutoff requests).length = 0
    · simp [sweepEntry, hl]
    · simp [sweepEntry, hl, keepRecent_idem]

theorem mapGet_TrackView_self (vt : ViewTracker) (req : ViewRequest) :
    mapGet (TrackView vt req).viewHistory (viewKey req) =
      some (mapIndex vt.viewHistory (viewKey req) ++ [req]) := by
  simp [TrackView, mapGet_mapSet_self]

theorem mapGet_TrackView_ne (vt : ViewTracker) (req : ViewRequest) (key : String)
    (hne : key ≠ viewKey req) :
    mapGet (TrackView vt req).viewHistory key = mapGet vt.viewHistory key := by
  simp [TrackView, mapGet_mapSet_ne _ _ _ _ hne]

/-! ## The organic decision -/

theorem isOrganicView_of_last (vt : ViewTracker) (req : ViewRequest) (now : Int)
    (last : ViewRequest)
    (h : (mapIndex vt.viewHistory (viewKey req)).getLast? = some last) :
    IsOrganicView vt req now = decide (now - last.Timestamp > window vt) := by
  have hne : (mapIndex vt.viewHistory (viewKey req)).length ≠ 0 := by
    intro h0
    rw [List.length_eq_zero] at h0
    rw [h0] at h
    simp at h
  have hget : (mapIndex vt.viewHistory (viewKey req)).get
      ⟨(mapIndex vt.viewHistory (viewKey req)).length - 1, Nat.sub_one_lt hne⟩ = last := by
    have hidx := List.getLast?_eq_getElem? (mapIndex vt.viewHistory (viewKey req))
    rw [h, List.getElem?_eq_getElem (Nat.sub_one_lt hne)] at hidx
    exact (Option.some.inj hidx).symm
  unfold IsOrganicView
  simp only [hne, dite_false, hget]
  exact decide_eq_decide.mpr (timeSince_gt_window vt now last.Timestamp)

/-- C1: when the key of the request has a non-empty history whose last element
is `last`, `IsOrganicView` is true exactly when `now - last.Timestamp` is
strictly greater than the window `vt.minutesGap * time.Minute`; on the boundary
it is false; and while the product does not overflow the window is `minutesGap`
minutes. -/
theorem isOrganicView_iff_elapsed_gt_window (vt : ViewTracker) (req : ViewRequest)
    (now : Int) (last : ViewRequest)
    (h : (mapIndex vt.viewHistory (viewKey req)).getLast? = some last) :
    (IsOrganicView vt req now = true ↔ now - last.Timestamp > window vt) ∧
    (now - last.Timestamp = window vt → IsOrganicView vt req now = false) ∧
    (-153722867 ≤ vt.minutesGap → vt.minutesGap ≤ 153722867 →
      (IsOrganicView vt req now = true ↔
        now - last.Timestamp > vt.minutesGap * 60000000000)) := by
  have key := isOrganicView_of_last vt req now last h
  refine ⟨?_, ?_, ?_⟩
  · rw [key]; exact decide_eq_true_iff
  · intro heq
    rw [key, heq]
    simp
  · intro h1 h2
    rw [key, window_of_small vt h1 h2]
    exact decide_eq_true_iff

theorem isOrganicView_iff_elapsed_gt_window_witness :
    (mapIndex seenTwice.viewHistory (viewKey (sampleEvent 7))).getLast? =
      some (sampleEvent 100) ∧
    ((IsOrganicView seenTwice (sampleEvent 7) 60000000100 = true ↔
        60000000100 - (sampleEvent 100).Timestamp > window seenTwice) ∧
      (60000000100 - (sampleEvent 100).Timestamp = window seenTwice →
        IsOrganicView seenTwice (sampleEvent 7) 60000000100 = false) ∧
      (-153722867 ≤ seenTwice.minutesGap → seenTwice.minutesGap ≤ 153722867 →
        (IsOrganicView seenTwice (sampleEvent 7) 60000000100 = true ↔
          60000000100 - (sampleEvent 100).Timestamp > seenTwice.minutesGap * 60000000000))) :=
  ⟨by decide,
    isOrganicView_iff_elapsed_gt_window seenTwice (sampleEvent 7) 60000000100
      (sampleEvent 100) (by decide)⟩

/-- C2: when the key of the request is absent from the map, `IsOrganicView` is
true for every clock reading and every `minutesGap`. -/
theorem isOrganicView_of_absent (vt : ViewTracker) (req : ViewRequest) (now : Int)
    (h : mapGet vt.viewHistory (viewKey req) = none) :
    IsOrganicView vt req now = true := by
  simp [IsOrganicView, mapIndex, h]

theorem isOrganicView_of_absent_witness :
    mapGet downTracker.viewHistory (viewKey (sampleEvent 5)) = none ∧
      IsOrganicView downTracker (sampleEvent 5) 5 = true :=
  ⟨by decide, isOrganicView_of_absent downTracker (sampleEvent 5) 5 (by decide)⟩

/-! ## The sweep -/

theorem sweepEntry_eq_some (cutoff : Int) (o : Option (List ViewRequest))
    (kept : List ViewRequest) (h : sweepEntry cutoff o = some kept) :
    ∃ requests, o = some requests ∧ kept = keepRecent cutoff requests ∧ kept ≠ [] := by
  cases o with
  | none => simp [sweepEntry] at h
  | some requests =>
    by_cases hl : (keepRecent cutoff requests).length = 0
    · simp [sweepEntry, hl] at h
    · simp only [sweepEntry, hl, if_false, Option.some.injEq] at h
      refine ⟨requests, rfl, h.symm, ?_⟩
      intro hk
      apply hl
      rw [h, hk]
      rfl

/-- C6: after `cleanOldRecords` runs at `now`, every key still in the map has a
non-empty sequence none of whose events has a timestamp at or before the cutoff
`time.Now().Add(-minutesGap * time.Minute)`, and a key all of whose events are at
or before the cutoff is absent afterwards. The cutoff is `now` plus the negated
window, which is `now - window` unless the window is the one `int64` whose
negation is not an `int64`. -/
theorem cleanOldRecords_purges (vt : ViewTracker) (now : Int) (key : String) :
    (∀ kept, mapGet (cleanOldRecords vt now).viewHistory key = some kept →
      kept ≠ [] ∧ ∀ e ∈ kept, ¬ e.Timestamp ≤ cutoffAt vt now) ∧
    ((∀ e ∈ mapIndex vt.viewHistory key, e.Timestamp ≤ cutoffAt vt now) →
      mapGet (cleanOldRecords vt now).viewHistory key = none) ∧
    cutoffAt vt now = timeAdd now (durNeg (window vt)) ∧
    (window vt ≠ minDuration → cutoffAt vt now = now - window vt) := by
  refine ⟨?_, ?_, cutoffAt_eq_add_neg vt now, cutoffAt_eq vt now⟩
  · intro kept hk
    rw [mapGet_cleanOldRecords] at hk
    obtain ⟨requests, _, hkept, hne⟩ := sweepEntry_eq_some _ _ _ hk
    refine ⟨hne, ?_⟩
    intro e he
    rw [hkept, mem_keepRecent] at he
    omega
  · intro hall
    rw [mapGet_cleanOldRecords]
    cases hg : mapGet vt.viewHistory key with
    | none => rfl
    | some requests =>
      have hnil : keepRecent (cutoffAt vt now) requests = [] := by
        rw [List.eq_nil_iff_forall_not_mem]
        intro e he
        rw [mem_keepRecent] at he
        have hle := hall e (by simpa [mapIndex, hg] using he.1)
        omega
      simp [sweepEntry, hnil]

theorem cleanOldRecords_purges_witness :
    (∀ e ∈ mapIndex seenTwice.viewHistory sampleKey,
      e.Timestamp ≤ cutoffAt seenTwice 60000000100) ∧
    mapGet (cleanOldRecords seenTwice 60000000100).viewHistory sampleKey = none ∧
    window seenTwice ≠ minDuration ∧
    cutoffAt seenTwice 60000000100 = 60000000100 - window seenTwice :=
  ⟨by decide,
    (cleanOldRecords_purges seenTwice 60000000100 sampleKey).2.1 (by decide),
    by decide,
    (cleanOldRecords_purges seenTwice 60000000100 sampleKey).2.2.2 (by decide)⟩

/-- C7: running `cleanOldRecords` twice with the same `now` leaves the same
store as running it once: every key reads the same (present with the same
sequence, or absent), and the other fields of the tracker are the same. -/
theorem cleanOldRecords_idempotent (vt : ViewTracker) (now : Int) (key : String) :
    mapGet (cleanOldRecords (cleanOldRecords vt now) now).viewHistory key =
      mapGet (cleanOldRecords vt now).viewHistory key ∧
    (cleanOldRecords (cleanOldRecords vt now) now).minutesGap =
      (cleanOldRecords vt now).minutesGap ∧
    (cleanOldRecords (cleanOldRecords vt now) now).db = (cleanOldRecords vt now).db := by
  refine ⟨?_, rfl, rfl⟩
  rw [mapGet_cleanOldRecords (cleanOldRecords vt now), mapGet_cleanOldRecords vt]
  have hc : cutoffAt (cleanOldRecords vt now) now = cutoffAt vt now := rfl
  rw [hc, sweepEntry_idem]

/-! ## Recording -/

theorem mapGet_foldl_TrackView (reqs : List ViewRequest) (vt : ViewTracker) (key : String) :
    mapGet (reqs.foldl TrackView vt).viewHistory key =
      if reqs.filter (fun r => decide (viewKey r = key)) = [] then mapGet vt.viewHistory key
      else some (mapIndex vt.viewHistory key ++
        reqs.filter (fun r => decide (viewKey r = key))) := by
  induction reqs generalizing vt with
  | nil => simp
  | cons req rest ih =>
    rw [List.foldl_cons, ih]
    by_cases hk : viewKey req = key
    · subst hk
      simp [List.filter_cons, mapIndex, mapGet_TrackView_self]
    · have hk2 : key ≠ viewKey req := fun h => hk h.symm
      simp [List.filter_cons, hk, mapIndex, mapGet_TrackView_ne vt req key hk2]

/-- C8: `TrackView` makes the sequence of the request's key the old sequence
(empty when the key was absent) followed by the request; it is a total function
with no error result; and after any series of `TrackView` calls from an empty
store every key holds exactly the requests recorded for it, in call order, a key
never recorded being absent. -/
theorem trackView_appends (vt : ViewTracker) (req : ViewRequest) (db : DBExecutor)
    (gap : Int) (reqs : List ViewRequest) (key : String) :
    mapGet (TrackView vt req).viewHistory (viewKey req) =
      some (mapIndex vt.viewHistory (viewKey req) ++ [req]) ∧
    mapGet (reqs.foldl TrackView ⟨[], db, gap⟩).viewHistory key =
      (if reqs.filter (fun r => decide (viewKey r = key)) = [] then none
       else some (reqs.filter (fun r => decide (viewKey r = key)))) := by
  refine ⟨mapGet_TrackView_self vt req, ?_⟩
  rw [mapGet_foldl_TrackView]
  simp [mapIndex, mapGet]

/-- C9: `TrackView` of a request leaves every other key as it was (its
sequence and whether it is present), and what `cleanOldRecords` leaves for a key
is determined by that key's own prior entry, `now` and `minutesGap`: two
trackers that agree on these agree on the key afterwards. -/
theorem keys_do_not_interact (vt other : ViewTracker) (req : ViewRequest) (now : Int)
    (key : String) :
    (key ≠ viewKey req →
      mapGet (TrackView vt req).viewHistory key = mapGet vt.viewHistory key) ∧
    (other.minutesGap = vt.minutesGap →
      mapGet other.viewHistory key = mapGet vt.viewHistory key →
      mapGet (cleanOldRecords other now).viewHistory key =
        mapGet (cleanOldRecords vt now).viewHistory key) := by
  refine ⟨mapGet_TrackView_ne vt req key, ?_⟩
  intro hgap hget
  rw [mapGet_cleanOldRecords, mapGet_cleanOldRecords, hget]
  unfold cutoffAt
  rw [hgap]

theorem keys_do_not_interact_witness :
    sampleKey ≠ viewKey (otherEvent 5) ∧
    mapGet (TrackView seenTwice (otherEvent 5)).viewHistory sampleKey =
      mapGet seenTwice.viewHistory sampleKey ∧
    crowded.minutesGap = seenTwice.minutesGap ∧
    mapGet crowded.viewHistory sampleKey = mapGet seenTwice.viewHistory sampleKey ∧
    mapGet (cleanOldRecords crowded 60000000050).viewHistory sampleKey =
      mapGet (cleanOldRecords seenTwice 60000000050).viewHistory sampleKey :=
  ⟨by decide,
    (keys_do_not_interact seenTwice crowded (otherEvent 5) 60000000050 sampleKey).1
      (by decide),
    by decide, by decide,
    (keys_do_not_interact seenTwice crowded (otherEvent 5) 60000000050 sampleKey).2
      (by decide) (by decide)⟩

/-! ## Reading the store -/

theorem window_congr (vt other : ViewTracker) (h : other.minutesGap = vt.minutesGap) :
    window other = window vt := by
  unfold window; rw [h]

theorem isOrganicView_of_nil (vt : ViewTracker) (req : ViewRequest) (now : Int)
    (h : mapIndex vt.viewHistory (viewKey req) = []) : IsOrganicView vt req now = true := by
  simp [IsOrganicView, h]

theorem mapIndex_TrackView_self (vt : ViewTracker) (req : ViewRequest) :
    mapIndex (TrackView vt req).viewHistory (viewKey req) =
      mapIndex vt.viewHistory (viewKey req) ++ [req] := by
  simp [mapIndex, mapGet_TrackView_self]

theorem mapIndex_TrackView_ne (vt : ViewTracker) (req : ViewRequest) (key : String)
    (hne : key ≠ viewKey req) :
    mapIndex (TrackView vt req).viewHistory key = mapIndex vt.viewHistory key := by
  simp [mapIndex, mapGet_TrackView_ne vt req key hne]

theorem getLast?_filter_of_last {α : Type} (p : α → Bool) (l : List α) (x : α)
    (h : l.getLast? = some x) (hp : p x = true) : (l.filter p).getLast? = some x := by
  obtain ⟨ys, rfl⟩ := List.getLast?_eq_some_iff.mp h
  simp [List.filter_append, List.filter_cons, hp]

theorem mapIndex_cleanOldRecords_last (vt : ViewTracker) (now : Int) (key : String)
    (last : ViewRequest) (h : (mapIndex vt.viewHistory key).getLast? = some last)
    (hrecent : cutoffAt vt now < last.Timestamp) :
    (mapIndex (cleanOldRecords vt now).viewHistory key).getLast? = some last := by
  unfold mapIndex at *
  rw [mapGet_cleanOldRecords]
  cases hg : mapGet vt.viewHistory key with
  | none => rw [hg] at h; simp at h
  | some requests =>
    rw [hg] at h
    simp only [Option.getD_some] at h
    have hkeep : (keepRecent (cutoffAt vt now) requests).getLast? = some last := by
      rw [keepRecent_eq_filter]
      exact getLast?_filter_of_last _ _ _ h (by simp [timeAfter, hrecent])
    have hlen : (keepRecent (cutoffAt vt now) requests).length ≠ 0 := by
      intro h0
      rw [List.length_eq_zero] at h0
      rw [h0] at hkeep
      simp at hkeep
    simp [sweepEntry, hlen, hkeep]

theorem mapIndex_cleanOldRecords (vt : ViewTracker) (now : Int) (key : String) :
    mapIndex (cleanOldRecords vt now).viewHistory key =
      (mapIndex vt.viewHistory key).filter
        (fun e => decide (cutoffAt vt now < e.Timestamp)) := by
  unfold mapIndex
  rw [mapGet_cleanOldRecords]
  cases hg : mapGet vt.viewHistory key with
  | none => simp [sweepEntry]
  | some requests =>
    by_cases hl : (keepRecent (cutoffAt vt now) requests).length = 0
    · have hnil := List.length_eq_zero.mp hl
      simp only [sweepEntry, hl, if_true, Option.getD_none, Option.getD_some]
      rw [keepRecent_eq_filter] at hnil
      exact hnil.symm
    · simp only [sweepEntry, hl, if_false, Option.getD_some]
      exact keepRecent_eq_filter _ _

/-! ## HandleView -/

theorem runSweeps_append (vt : ViewTracker) (pre mid : List Int) :
    runSweeps (runSweeps vt pre) mid = runSweeps vt (pre ++ mid) := by
  simp [runSweeps, List.foldl_append]

theorem runSweeps_fields (times : List Int) (vt : ViewTracker) :
    (runSweeps vt times).db = vt.db ∧ (runSweeps vt times).minutesGap = vt.minutesGap := by
  induction times generalizing vt with
  | nil => exact ⟨rfl, rfl⟩
  | cons t rest ih =>
    have h := ih (cleanOldRecords vt t)
    exact ⟨h.1, h.2⟩

theorem runSweeps_subset (times : List Int) (vt : ViewTracker) (key : String) :
    ∀ e ∈ mapIndex (runSweeps vt times).viewHistory key, e ∈ mapIndex vt.viewHistory key := by
  induction times generalizing vt with
  | nil => intro e he; exact he
  | cons t rest ih =>
    intro e he
    have h1 := ih (cleanOldRecords vt t) e he
    rw [mapIndex_cleanOldRecords] at h1
    exact (List.mem_filter.mp h1).1

theorem handleView_not_organic (vt : ViewTracker) (r : Request) (tableName : String)
    (id now since : Int) (pre mid : List Int)
    (h : IsOrganicView (runSweeps vt pre) (mkRequest r tableName id now) since = false) :
    HandleView vt r tableName id now since pre mid =
      ⟨TrackView (runSweeps vt (pre ++ mid)) (mkRequest r tableName id now), none, []⟩ := by
  simp [HandleView, h, runSweeps_append]

theorem handleView_organic_ok (vt : ViewTracker) (r : Request) (tableName : String)
    (id now since : Int) (pre mid : List Int)
    (h : IsOrganicView (runSweeps vt pre) (mkRequest r tableName id now) since = true)
    (hdb : vt.db (incrementQuery tableName) [id] = none) :
    HandleView vt r tableName id now since pre mid =
      ⟨TrackView (runSweeps vt (pre ++ mid)) (mkRequest r tableName id now), none,
        [⟨incrementQuery tableName, [id]⟩]⟩ := by
  simp [HandleView, h, IncrementViewCount, (runSweeps_fields pre vt).1, hdb, runSweeps_append]

theorem handleView_organic_fail (vt : ViewTracker) (r : Request) (tableName : String)
    (id now since : Int) (pre mid : List Int) (cause : GoError)
    (h : IsOrganicView (runSweeps vt pre) (mkRequest r tableName id now) since = true)
    (hdb : vt.db (incrementQuery tableName) [id] = some cause) :
    HandleView vt r tableName id now since pre mid =
      ⟨runSweeps vt (pre ++ mid), some (fmtErrorfW "failed to increment view count: " cause),
        [⟨incrementQuery tableName, [id]⟩]⟩ := by
  simp [HandleView, h, IncrementViewCount, (runSweeps_fields pre vt).1, hdb, runSweeps_append]

/-- C3, as the code has it: `HandleView` records the event exactly when it
returns nil. `pre` and `mid` are the sweeps that run inside the call, before
and after the decision. A view judged not organic, and a view judged organic
whose increment succeeds, return nil and append the event to what those sweeps
have left of the history of its key. A view judged organic whose increment fails
returns an error without recording: the store afterwards is the store before the
call as the sweeps have left it, and holds no event that was not there before. -/
theorem handleView_records_unless_error (vt : ViewTracker) (r : Request)
    (tableName : String) (id now since : Int) (pre mid : List Int) :
    ((HandleView vt r tableName id now since pre mid).err = none →
      mapGet (HandleView vt r tableName id now since pre mid).vt.viewHistory
          (viewKey (mkRequest r tableName id now)) =
        some (mapIndex (runSweeps vt (pre ++ mid)).viewHistory
            (viewKey (mkRequest r tableName id now)) ++
          [mkRequest r tableName id now])) ∧
    (IsOrganicView (runSweeps vt pre) (mkRequest r tableName id now) since = false →
      (HandleView vt r tableName id now since pre mid).err = none) ∧
    (IsOrganicView (runSweeps vt pre) (mkRequest r tableName id now) since = true →
      vt.db (incrementQuery tableName) [id] = none →
      (HandleView vt r tableName id now since pre mid).err = none) ∧
    (IsOrganicView (runSweeps vt pre) (mkRequest r tableName id now) since = true →
      vt.db (incrementQuery tableName) [id] ≠ none →
      (HandleView vt r tableName id now since pre mid).err ≠ none ∧
      (HandleView vt r tableName id now since pre mid).vt.viewHistory =
        (runSweeps vt (pre ++ mid)).viewHistory ∧
      ∀ key, ∀ e ∈ mapIndex (HandleView vt r tableName id now since pre mid).vt.viewHistory key,
        e ∈ mapIndex vt.viewHistory key) := by
  cases horg : IsOrganicView (runSweeps vt pre) (mkRequest r tableName id now) since with
  | false =>
    rw [handleView_not_organic vt r tableName id now since pre mid horg]
    simp [mapGet_TrackView_self]
  | true =>
    cases hdb : vt.db (incrementQuery tableName) [id] with
    | none =>
      rw [handleView_organic_ok vt r tableName id now since pre mid horg hdb]
      simp [mapGet_TrackView_self]
    | some cause =>
      rw [handleView_organic_fail vt r tableName id now since pre mid cause horg hdb]
      simp only [reduceCtorEq, false_implies, true_implies, ne_eq, not_false_eq_true,
        not_true_eq_false, true_and, and_true]
      exact fun key => runSweeps_subset (pre ++ mid) vt key

theorem handleView_records_unless_error_witness :
    IsOrganicView (runSweeps staleOther [120000000000])
      (mkRequest sampleRequest "posts" 7 120000000000) 120000000000 = true ∧
    staleOther.db (incrementQuery "posts") [7] ≠ none ∧
    ((HandleView staleOther sampleRequest "posts" 7 120000000000 120000000000
        [120000000000] []).err ≠ none ∧
      (HandleView staleOther sampleRequest "posts" 7 120000000000 120000000000
        [120000000000] []).vt.viewHistory =
        (runSweeps staleOther ([120000000000] ++ [])).viewHistory ∧
      ∀ key, ∀ e ∈ mapIndex (HandleView staleOther sampleRequest "posts" 7 120000000000
          120000000000 [120000000000] []).vt.viewHistory key,
        e ∈ mapIndex staleOther.viewHistory key) ∧
    (runSweeps staleOther ([120000000000] ++ [])).viewHistory = [] :=
  ⟨by decide, by decide,
    (handleView_records_unless_error staleOther sampleRequest "posts" 7 120000000000
      120000000000 [120000000000] []).2.2.2 (by decide) (by decide),
    by decide⟩

/-- C3 fails as stated: on a fresh tracker whose database is down, the organic
view at time 0 returns an error and is not recorded, whether the sweep it
started has run or not, so the next view of the same key one nanosecond later,
well inside the thirty-minute window, is judged organic. -/
theorem handleView_failed_increment_not_recorded :
    IsOrganicView (runSweeps downTracker [0]) (mkRequest sampleRequest "posts" 7 0) 0 = true ∧
    (HandleView downTracker sampleRequest "posts" 7 0 0 [0] []).err ≠ none ∧
    mapGet (HandleView downTracker sampleRequest "posts" 7 0 0 [0] []).vt.viewHistory
        (viewKey (mkRequest sampleRequest "posts" 7 0)) = none ∧
    (HandleView downTracker sampleRequest "posts" 7 0 0 [] []).err ≠ none ∧
    mapGet (HandleView downTracker sampleRequest "posts" 7 0 0 [] []).vt.viewHistory
        (viewKey (mkRequest sampleRequest "posts" 7 0)) = none ∧
    viewKey (mkRequest sampleRequest "posts" 7 1) =
      viewKey (mkRequest sampleRequest "posts" 7 0) ∧
    1 - 0 ≤ window downTracker ∧
    IsOrganicView (HandleView downTracker sampleRequest "posts" 7 0 0 [0] []).vt
        (mkRequest sampleRequest "posts" 7 1) 1 = true ∧
    IsOrganicView
        (runSweeps (HandleView downTracker sampleRequest "posts" 7 0 0 [0] []).vt [1])
        (mkRequest sampleRequest "posts" 7 1) 1 = true := by
  decide

/-- C10: `HandleView` returns an error exactly when the view is judged organic
(on the store as it is at the decision, after the sweeps `pre` that ran before
it) and the `Exec` call of the increment fails; the error returned wraps the
error of `Exec` (`Unwrap` gives it back) and its text is that error's text after
"failed to increment view count: ". In every other case it returns nil. -/
theorem handleView_error_iff (vt : ViewTracker) (r : Request) (tableName : String)
    (id now since : Int) (pre mid : List Int) :
    ((HandleView vt r tableName id now since pre mid).err ≠ none ↔
      (IsOrganicView (runSweeps vt pre) (mkRequest r tableName id now) since = true ∧
        vt.db (incrementQuery tableName) [id] ≠ none)) ∧
    (∀ e, (HandleView vt r tableName id now since pre mid).err = some e →
      ∃ cause, vt.db (incrementQuery tableName) [id] = some cause ∧
        e.Unwrap = some cause ∧
        e.Error = "failed to increment view count: " ++ cause.Error) := by
  cases horg : IsOrganicView (runSweeps vt pre) (mkRequest r tableName id now) since with
  | false =>
    rw [handleView_not_organic vt r tableName id now since pre mid horg]
    simp
  | true =>
    cases hdb : vt.db (incrementQuery tableName) [id] with
    | none =>
      rw [handleView_organic_ok vt r tableName id now since pre mid horg hdb]
      simp
    | some cause =>
      rw [handleView_organic_fail vt r tableName id now since pre mid cause horg hdb]
      simp [fmtErrorfW, GoError.Unwrap, GoError.Error]

theorem handleView_error_iff_witness :
    (HandleView downTracker sampleRequest "posts" 7 0 0 [0] []).err =
      some (.wrapped "failed to increment view count: connection refused"
        (.plain "connection refused")) ∧
    ∃ cause, downTracker.db (incrementQuery "posts") [7] = some cause ∧
      GoError.Unwrap (.wrapped "failed to increment view count: connection refused"
        (.plain "connection refused")) = some cause ∧
      GoError.Error (.wrapped "failed to increment view count: connection refused"
        (.plain "connection refused")) =
        "failed to increment view count: " ++ cause.Error :=
  ⟨by decide,
    (handleView_error_iff downTracker sampleRequest "posts" 7 0 0 [0] []).2 _ (by decide)⟩

/-! ## The increment call -/

/-- C11, as the code has it: `HandleView` makes exactly one `Exec` call, the
increment query of `tableName` with `id` as its bound argument, when
`IsOrganicView` is true on the store as it is at the decision, that is the store
before the call as the sweeps `pre` that ran before the decision have left it,
and no `Exec` call when it is false. When no sweep runs before the decision
that store is the store before the call. -/
theorem handleView_exec_calls (vt : ViewTracker) (r : Request) (tableName : String)
    (id now since : Int) (pre mid : List Int) :
    (IsOrganicView (runSweeps vt pre) (mkRequest r tableName id now) since = true →
      (HandleView vt r tableName id now since pre mid).execLog =
        [⟨incrementQuery tableName, [id]⟩]) ∧
    (IsOrganicView (runSweeps vt pre) (mkRequest r tableName id now) since = false →
      (HandleView vt r tableName id now since pre mid).execLog = []) ∧
    (IsOrganicView vt (mkRequest r tableName id now) since = true →
      (HandleView vt r tableName id now since [] mid).execLog =
        [⟨incrementQuery tableName, [id]⟩]) ∧
    (IsOrganicView vt (mkRequest r tableName id now) since = false →
      (HandleView vt r tableName id now since [] mid).execLog = []) := by
  have main : ∀ before : List Int,
      (IsOrganicView (runSweeps vt before) (mkRequest r tableName id now) since = true →
        (HandleView vt r tableName id now since before mid).execLog =
          [⟨incrementQuery tableName, [id]⟩]) ∧
      (IsOrganicView (runSweeps vt before) (mkRequest r tableName id now) since = false →
        (HandleView vt r tableName id now since before mid).execLog = []) := by
    intro before
    cases horg : IsOrganicView (runSweeps vt before) (mkRequest r tableName id now) since with
    | false =>
      rw [handleView_not_organic vt r tableName id now since before mid horg]
      simp
    | true =>
      cases hdb : vt.db (incrementQuery tableName) [id] with
      | none =>
        rw [handleView_organic_ok vt r tableName id now since before mid horg hdb]
        simp
      | some cause =>
        rw [handleView_organic_fail vt r tableName id now since before mid cause horg hdb]
        simp
  exact ⟨(main pre).1, (main pre).2, (main []).1, (main []).2⟩

theorem handleView_exec_calls_witness :
    IsOrganicView (runSweeps downTracker [0]) (mkRequest sampleRequest "posts" 7 0) 0 = true ∧
    (HandleView downTracker sampleRequest "posts" 7 0 0 [0] []).execLog =
      [⟨incrementQuery "posts", [7]⟩] ∧
    IsOrganicView (runSweeps seenTwice [200]) (mkRequest sampleRequest "posts" 7 200) 200 =
      false ∧
    (HandleView seenTwice sampleRequest "posts" 7 200 200 [200] []).execLog = [] ∧
    IsOrganicView seenTwice (mkRequest sampleRequest "posts" 7 200) 200 = false ∧
    (HandleView seenTwice sampleRequest "posts" 7 200 200 [] [200]).execLog = [] :=
  ⟨by decide,
    (handleView_exec_calls downTracker sampleRequest "posts" 7 0 0 [0] []).1 (by decide),
    by decide,
    (handleView_exec_calls seenTwice sampleRequest "posts" 7 200 200 [200] []).2.1 (by decide),
    by decide,
    (handleView_exec_calls seenTwice sampleRequest "posts" 7 200 200 [] [200]).2.2.2
      (by decide)⟩

/-- C11 fails as stated: the sweep that `HandleView` starts can run before the
decision. On `seenTwice`, exactly one window after the last event,
`IsOrganicView` is false on the store before the call, yet the call whose sweep
runs first makes the `Exec` call. On `outOfOrder`, just after its newest event,
`IsOrganicView` is true on the store before the call, yet the call whose sweep
runs first makes no `Exec` call. -/
theorem handleView_decides_after_sweep :
    IsOrganicView seenTwice (mkRequest sampleRequest "posts" 7 60000000100) 60000000100 =
      false ∧
    (HandleView seenTwice sampleRequest "posts" 7 60000000100 60000000100
      [60000000100] []).execLog = [⟨incrementQuery "posts", [7]⟩] ∧
    IsOrganicView outOfOrder (mkRequest sampleRequest "posts" 7 60000000000001)
      60000000000003 = true ∧
    (HandleView outOfOrder sampleRequest "posts" 7 60000000000001 60000000000003
      [60000000000002] []).execLog = [] := by
  decide

theorem incrementQuery_injective (t1 t2 : String)
    (h : incrementQuery t1 = incrementQuery t2) : t1 = t2 := by
  unfold incrementQuery at h
  have hd := congrArg String.data h
  simp only [String.data_append, List.append_assoc] at hd
  have h1 := List.append_cancel_left hd
  have h2 := List.append_cancel_right h1
  exact String.ext h2

/-- C12, as the code has it: `IncrementViewCount` makes one `Exec` call whose
only bound argument is `id`, and whose query text does not depend on `id`; the
table name is written into the query text itself, between "UPDATE " and
" SET view_count = view_count + 1 WHERE id = $1", so two different table names
give two different query strings. -/
theorem incrementViewCount_binds_id_only (vt : ViewTracker) (tableName other : String)
    (id id2 : Int) :
    (IncrementViewCount vt tableName id).2 =
      [⟨"UPDATE " ++ tableName ++ " SET view_count = view_count + 1 WHERE id = $1", [id]⟩] ∧
    (IncrementViewCount vt tableName id).2.map (fun c => c.query) =
      (IncrementViewCount vt tableName id2).2.map (fun c => c.query) ∧
    (tableName ≠ other →
      (IncrementViewCount vt tableName id).2.map (fun c => c.query) ≠
        (IncrementViewCount vt other id).2.map (fun c => c.query)) := by
  refine ⟨rfl, rfl, ?_⟩
  intro hne heq
  simp only [IncrementViewCount, List.map_cons, List.map_nil, List.cons.injEq, and_true] at heq
  exact hne (incrementQuery_injective _ _ heq)

theorem incrementViewCount_binds_id_only_witness :
    "posts" ≠ "users" ∧
    (IncrementViewCount downTracker "posts" 7).2.map (fun c => c.query) ≠
      (IncrementViewCount downTracker "users" 7).2.map (fun c => c.query) :=
  ⟨by decide,
    (incrementViewCount_binds_id_only downTracker "posts" "users" 7 8).2.2 (by decide)⟩

/-- C12 fails as stated: the query text passed to `Exec` contains the table
name, so it is not the same for two table names, and a table name carrying SQL
text puts that text into the query. -/
theorem incrementQuery_interpolates_table :
    (IncrementViewCount downTracker "posts" 7).2 =
      [⟨"UPDATE posts SET view_count = view_count + 1 WHERE id = $1", [7]⟩] ∧
    (IncrementViewCount downTracker "users" 7).2 =
      [⟨"UPDATE users SET view_count = view_count + 1 WHERE id = $1", [7]⟩] ∧
    (IncrementViewCount downTracker "posts" 7).2.map (fun c => c.query) ≠
      (IncrementViewCount downTracker "users" 7).2.map (fun c => c.query) ∧
    (IncrementViewCount downTracker "posts SET view_count = 0 --" 7).2 =
      [⟨"UPDATE posts SET view_count = 0 -- SET view_count = view_count + 1 WHERE id = $1",
        [7]⟩] := by
  decide

/-! ## The store invariant -/

theorem trackView_nonempty (vt : ViewTracker) (req : ViewRequest)
    (hinv : ∀ key seq, mapGet vt.viewHistory key = some seq → seq ≠ []) :
    ∀ key seq, mapGet (TrackView vt req).viewHistory key = some seq → seq ≠ [] := by
  intro key seq hget
  by_cases hk : key = viewKey req
  · subst hk
    rw [mapGet_TrackView_self] at hget
    intro hnil
    rw [← Option.some.inj hget] at hnil
    simp at hnil
  · rw [mapGet_TrackView_ne vt req key hk] at hget
    exact hinv key seq hget

theorem cleanOldRecords_nonempty (vt : ViewTracker) (now : Int) :
    ∀ key seq, mapGet (cleanOldRecords vt now).viewHistory key = some seq → seq ≠ [] := by
  intro key seq hget
  rw [mapGet_cleanOldRecords] at hget
  obtain ⟨_, _, _, hne⟩ := sweepEntry_eq_some _ _ _ hget
  exact hne

theorem runSweeps_nonempty (times : List Int) (vt : ViewTracker)
    (hinv : ∀ key seq, mapGet vt.viewHistory key = some seq → seq ≠ []) :
    ∀ key seq, mapGet (runSweeps vt times).viewHistory key = some seq → seq ≠ [] := by
  induction times generalizing vt with
  | nil => exact hinv
  | cons t rest ih => exact ih (cleanOldRecords vt t) (cleanOldRecords_nonempty vt t)

theorem handleView_vt_cases (vt : ViewTracker) (r : Request) (tableName : String)
    (id now since : Int) (pre mid : List Int) :
    (HandleView vt r tableName id now since pre mid).vt = runSweeps vt (pre ++ mid) ∨
      (HandleView vt r tableName id now since pre mid).vt =
        TrackView (runSweeps vt (pre ++ mid)) (mkRequest r tableName id now) := by
  cases horg : IsOrganicView (runSweeps vt pre) (mkRequest r tableName id now) since with
  | false =>
    rw [handleView_not_organic vt r tableName id now since pre mid horg]
    exact Or.inr rfl
  | true =>
    cases hdb : vt.db (incrementQuery tableName) [id] with
    | none =>
      rw [handleView_organic_ok vt r tableName id now since pre mid horg hdb]
      exact Or.inr rfl
    | some cause =>
      rw [handleView_organic_fail vt r tableName id now since pre mid cause horg hdb]
      exact Or.inl rfl

theorem applyOp_nonempty (vt : ViewTracker) (op : Op)
    (hinv : ∀ key seq, mapGet vt.viewHistory key = some seq → seq ≠ []) :
    ∀ key seq, mapGet (applyOp vt op).viewHistory key = some seq → seq ≠ [] := by
  cases op with
  | trackView req => exact trackView_nonempty vt req hinv
  | cleanOldRecords now => exact cleanOldRecords_nonempty vt now
  | isOrganicView req now => exact hinv
  | handleView r tableName id now since pre mid =>
    simp only [applyOp]
    have hswept := runSweeps_nonempty (pre ++ mid) vt hinv
    rcases handleView_vt_cases vt r tableName id now since pre mid with h | h
    · rw [h]; exact hswept
    · rw [h]; exact trackView_nonempty _ _ hswept

theorem foldl_applyOp_nonempty (ops : List Op) (vt : ViewTracker)
    (hinv : ∀ key seq, mapGet vt.viewHistory key = some seq → seq ≠ []) :
    ∀ key seq, mapGet (ops.foldl applyOp vt).viewHistory key = some seq → seq ≠ [] := by
  induction ops generalizing vt with
  | nil => exact hinv
  | cons op rest ih =>
    rw [List.foldl_cons]
    exact ih (applyOp vt op) (applyOp_nonempty vt op hinv)

/-- C13: in every state reached from a freshly constructed tracker (empty map,
any database, any `minutesGap`) by any series of `TrackView`, `cleanOldRecords`,
`IsOrganicView` and `HandleView` calls, whenever the sweeps that `HandleView`
starts run, every key present in `viewHistory` maps to a non-empty sequence. -/
theorem reachable_sequences_nonempty (db : DBExecutor) (gap : Int) (ops : List Op)
    (key : String) (seq : List ViewRequest)
    (h : mapGet (ops.foldl applyOp ⟨[], db, gap⟩).viewHistory key = some seq) :
    seq ≠ [] := by
  refine foldl_applyOp_nonempty ops ⟨[], db, gap⟩ ?_ key seq h
  intro k s hk
  simp [mapGet] at hk

theorem reachable_sequences_nonempty_witness :
    mapGet (sampleOps.foldl applyOp ⟨[], postsDownDB, 1⟩).viewHistory
        (viewKey (mkRequest sampleRequest "users" 7 0)) =
      some [mkRequest sampleRequest "users" 7 60000000007] ∧
    [mkRequest sampleRequest "users" 7 60000000007] ≠ [] :=
  ⟨by decide,
    reachable_sequences_nonempty postsDownDB 1 sampleOps
      (viewKey (mkRequest sampleRequest "users" 7 0))
      [mkRequest sampleRequest "users" 7 60000000007] (by decide)⟩

/-! ## Construction -/

/-- C15: `NewViewTracker` panics exactly when the handle is neither a `*sql.DB`
nor a `*pgxpool.Pool`, and then returns no tracker; for a supported handle it
returns a tracker whose history map is empty and whose `minutesGap` is the value
supplied. -/
theorem newViewTracker_panics_iff (db : DBHandle) (minutesGap : Int) :
    ((∃ msg, NewViewTracker db minutesGap = .error msg) ↔
      ((∀ d, db ≠ .sqlDB d) ∧ (∀ d, db ≠ .pgxPool d))) ∧
    (NewViewTracker db minutesGap = .error "unsupported database type" ∨
      ∃ vt, NewViewTracker db minutesGap = .ok vt ∧ vt.viewHistory = [] ∧
        vt.minutesGap = minutesGap) ∧
    (∀ d, NewViewTracker (.sqlDB d) minutesGap = .ok ⟨[], d, minutesGap⟩) ∧
    (∀ d, NewViewTracker (.pgxPool d) minutesGap = .ok ⟨[], NewPgxAdapter d, minutesGap⟩) := by
  refine ⟨?_, ?_, fun _ => rfl, fun _ => rfl⟩
  · cases db with
    | sqlDB d => simp [NewViewTracker]
    | pgxPool d => simp [NewViewTracker]
    | other => simp [NewViewTracker]
  · cases db with
    | sqlDB d => exact Or.inr ⟨_, rfl, rfl, rfl⟩
    | pgxPool d => exact Or.inr ⟨_, rfl, rfl, rfl⟩
    | other => exact Or.inl rfl

/-! ## What the sweep keeps -/

/-- C16: the sequence `cleanOldRecords` leaves for a key is exactly the
sub-sequence, in the original order, of its prior events whose timestamp is
strictly after the cutoff `time.Now().Add(-minutesGap * time.Minute)`; the key
stays present exactly when there is such an event. The cutoff is `now` plus the
negated window, which is `now - window` unless the window is the one `int64`
whose negation is not an `int64`. -/
theorem cleanOldRecords_keeps_exactly (vt : ViewTracker) (now : Int) (key : String) :
    mapIndex (cleanOldRecords vt now).viewHistory key =
      (mapIndex vt.viewHistory key).filter (fun e => decide (cutoffAt vt now < e.Timestamp)) ∧
    ((mapGet (cleanOldRecords vt now).viewHistory key).isSome = true ↔
      ∃ e ∈ mapIndex vt.viewHistory key, cutoffAt vt now < e.Timestamp) ∧
    cutoffAt vt now = timeAdd now (durNeg (window vt)) ∧
    (window vt ≠ minDuration → cutoffAt vt now = now - window vt) := by
  refine ⟨?_, ?_, cutoffAt_eq_add_neg vt now, cutoffAt_eq vt now⟩
  · exact mapIndex_cleanOldRecords vt now key
  · rw [mapGet_cleanOldRecords]
    unfold mapIndex
    cases hg : mapGet vt.viewHistory key with
    | none => simp [sweepEntry]
    | some requests =>
      by_cases hl : (keepRecent (cutoffAt vt now) requests).length = 0
      · have hnil := List.length_eq_zero.mp hl
        simp only [sweepEntry, hl, if_true, Option.isSome_none, Option.getD_some]
        constructor
        · intro hf; simp at hf
        · rintro ⟨e, he, hts⟩
          have hmem : e ∈ keepRecent (cutoffAt vt now) requests :=
            (mem_keepRecent _ _ _).mpr ⟨he, hts⟩
          rw [hnil] at hmem
          simp at hmem
      · simp only [sweepEntry, hl, if_false, Option.isSome_some, Option.getD_some, true_iff]
        obtain ⟨e, he⟩ := List.exists_mem_of_length_pos (Nat.pos_of_ne_zero hl)
        exact ⟨e, ((mem_keepRecent _ _ _).mp he).1, ((mem_keepRecent _ _ _).mp he).2⟩

theorem cleanOldRecords_keeps_exactly_witness :
    mapIndex (cleanOldRecords seenTwice 60000000050).viewHistory sampleKey =
      [sampleEvent 100] ∧
    window seenTwice ≠ minDuration ∧
    cutoffAt seenTwice 60000000050 = 60000000050 - window seenTwice :=
  ⟨by
      rw [(cleanOldRecords_keeps_exactly seenTwice 60000000050 sampleKey).1]
      decide,
    by decide,
    (cleanOldRecords_keeps_exactly seenTwice 60000000050 sampleKey).2.2.2 (by decide)⟩

/-! ## The client address -/

theorem splitChars_head (sep : Char) (l : List Char) :
    (splitChars sep l).headD [] = l.takeWhile (fun c => decide (c ≠ sep)) := by
  induction l with
  | nil => rfl
  | cons c cs ih =>
    rw [List.takeWhile_cons]
    by_cases h : c = sep
    · subst h
      simp [splitChars]
    · have hp : decide (c ≠ sep) = true := by simp [h]
      simp only [hp, if_true, splitChars, h, if_false]
      cases hs : splitChars sep cs with
      | nil =>
        rw [hs] at ih
        simp only [List.headD_cons]
        rw [← ih]
        rfl
      | cons first rest =>
        rw [hs] at ih
        simp only [List.headD_cons] at ih ⊢
        rw [ih]

theorem stringsSplitComma_head (s : String) :
    (stringsSplitComma s).headD "" =
      String.mk (s.data.takeWhile (fun c => decide (c ≠ ','))) := by
  unfold stringsSplitComma
  rw [← splitChars_head]
  cases splitChars ',' s.data with
  | nil => rfl
  | cons first rest => rfl

theorem stringsTrimSpace_spec (s : String) :
    ∃ before after, s.data = before ++ (stringsTrimSpace s).data ++ after ∧
      (∀ c ∈ before, isSpace c = true) ∧ (∀ c ∈ after, isSpace c = true) ∧
      (∀ c, (stringsTrimSpace s).data.head? = some c → isSpace c = false) ∧
      (∀ c, (stringsTrimSpace s).data.getLast? = some c → isSpace c = false) := by
  have hsplit := List.takeWhile_append_dropWhile isSpace s.data
  have hrev := List.takeWhile_append_dropWhile isSpace (s.data.dropWhile isSpace).reverse
  have hmid : s.data.dropWhile isSpace =
      ((s.data.dropWhile isSpace).reverse.dropWhile isSpace).reverse ++
        ((s.data.dropWhile isSpace).reverse.takeWhile isSpace).reverse := by
    have := congrArg List.reverse hrev
    rw [List.reverse_append, List.reverse_reverse] at this
    exact this.symm
  have hlast : ∀ c, (((s.data.dropWhile isSpace).reverse.dropWhile isSpace).reverse).getLast?
      = some c → isSpace c = false := by
    intro c hc
    rw [List.getLast?_reverse] at hc
    have := List.head?_dropWhile_not isSpace (s.data.dropWhile isSpace).reverse
    rw [hc] at this
    exact this
  refine ⟨s.data.takeWhile isSpace,
    ((s.data.dropWhile isSpace).reverse.takeWhile isSpace).reverse, ?_, ?_, ?_, ?_, hlast⟩
  · simp only [stringsTrimSpace, List.append_assoc]
    rw [← hmid, hsplit]
  · intro c hc
    exact List.mem_takeWhile_imp hc
  · intro c hc
    rw [List.mem_reverse] at hc
    exact List.mem_takeWhile_imp hc
  · intro c hc
    simp only [stringsTrimSpace] at hc
    have hd := List.head?_dropWhile_not isSpace s.data
    rw [hmid] at hd
    cases ht : ((s.data.dropWhile isSpace).reverse.dropWhile isSpace).reverse with
    | nil => rw [ht] at hc; simp at hc
    | cons x xs =>
      rw [ht] at hc hd
      simp only [List.head?_cons, Option.some.injEq] at hc
      simp only [List.cons_append, List.head?_cons] at hd
      rw [← hc]
      exact hd

theorem lastIndexOf_append_cons (c : Char) (h p : List Char) (hp : c ∉ p) :
    lastIndexOf c (h ++ c :: p) = some h.length := by
  have hnone : (p.reverse).findIdx? (fun x => x == c) = none := by
    rw [List.findIdx?_eq_none_iff]
    intro x hx
    rw [List.mem_reverse] at hx
    simp only [beq_iff_eq, Bool.not_eq_true, beq_eq_false_iff_ne]
    intro hxc
    exact hp (hxc ▸ hx)
  unfold lastIndexOf
  simp only [List.indexOf?, List.reverse_append, List.reverse_cons, List.append_assoc,
    List.findIdx?_append, hnone, Option.none_or]
  simp

theorem indexOf?_isSome_iff (c : Char) (l : List Char) :
    (l.indexOf? c).isSome = true ↔ c ∈ l := by
  rw [← Option.ne_none_iff_isSome, Ne, List.indexOf?_eq_none_iff]
  simp only [beq_iff_eq, not_forall, Classical.not_imp, not_not]
  constructor
  · rintro ⟨x, hx, rfl⟩; exact hx
  · intro hc; exact ⟨c, hc, rfl⟩

theorem netSplitHostPort_plain (host port : List Char)
    (hhost : ∀ c ∈ host, c ≠ ':' ∧ c ≠ '[' ∧ c ≠ ']')
    (hport : ∀ c ∈ port, c ≠ ':' ∧ c ≠ '[' ∧ c ≠ ']') :
    netSplitHostPort (String.mk (host ++ ':' :: port)) = some (String.mk host) := by
  have hcolon : ':' ∉ port := fun h => (hport _ h).1 rfl
  have hhead : (host ++ ':' :: port).head? ≠ some '[' := by
    cases host with
    | nil => simp
    | cons x xs =>
      simp only [List.cons_append, List.head?_cons, ne_eq, Option.some.injEq]
      exact (hhost x (List.mem_cons_self _ _)).2.1
  have h1 : ((host ++ ':' :: port).take host.length) = host := by simp
  have h2 : ¬ ((host.indexOf? ':').isSome = true) := by
    rw [indexOf?_isSome_iff]; exact fun h => (hhost _ h).1 rfl
  have h3 : ¬ (((host ++ ':' :: port).indexOf? '[').isSome = true) := by
    rw [indexOf?_isSome_iff]
    simp only [List.mem_append, List.mem_cons, not_or]
    exact ⟨fun h => (hhost _ h).2.1 rfl, by decide, fun h => (hport _ h).2.1 rfl⟩
  have h4 : ¬ (((host ++ ':' :: port).indexOf? ']').isSome = true) := by
    rw [indexOf?_isSome_iff]
    simp only [List.mem_append, List.mem_cons, not_or]
    exact ⟨fun h => (hhost _ h).2.2 rfl, by decide, fun h => (hport _ h).2.2 rfl⟩
  unfold netSplitHostPort
  simp only [lastIndexOf_append_cons ':' host port hcolon, hhead, if_false, h1, h2, h3, h4]
  simp

theorem netSplitHostPort_no_colon (addr : String) (h : ':' ∉ addr.data) :
    netSplitHostPort addr = none := by
  have hnone : lastIndexOf ':' addr.data = none := by
    unfold lastIndexOf
    have : addr.data.reverse.indexOf? ':' = none := by
      rw [List.indexOf?_eq_none_iff]
      intro x hx
      rw [List.mem_reverse] at hx
      simp only [beq_iff_eq]
      intro hxc
      exact h (hxc ▸ hx)
    rw [this]
  unfold netSplitHostPort
  simp only [hnone]

/-- C14: `extractIP` takes the address from `X-Forwarded-For`, then `X-Real-IP`,
then `RemoteAddr`. When `X-Forwarded-For` is non-empty the result is the part of
it before the first comma with the white space around it trimmed; otherwise when
`X-Real-IP` is non-empty the result is that value unchanged; otherwise it is the
host that `net.SplitHostPort` gives for `RemoteAddr`, or `RemoteAddr` unchanged
when `net.SplitHostPort` fails. For a plain `host:port` the host is the part
before the colon, and an address without a colon cannot be split. -/
theorem extractIP_priority (r : Request) :
    (r.Header "X-Forwarded-For" ≠ "" →
      extractIP r = stringsTrimSpace
        (String.mk ((r.Header "X-Forwarded-For").data.takeWhile (fun c => decide (c ≠ ',')))) ∧
      ∃ before after,
        (r.Header "X-Forwarded-For").data.takeWhile (fun c => decide (c ≠ ',')) =
          before ++ (extractIP r).data ++ after ∧
        (∀ c ∈ before, isSpace c = true) ∧ (∀ c ∈ after, isSpace c = true) ∧
        (∀ c, (extractIP r).data.head? = some c → isSpace c = false) ∧
        (∀ c, (extractIP r).data.getLast? = some c → isSpace c = false)) ∧
    (r.Header "X-Forwarded-For" = "" → r.Header "X-Real-IP" ≠ "" →
      extractIP r = r.Header "X-Real-IP") ∧
    (r.Header "X-Forwarded-For" = "" → r.Header "X-Real-IP" = "" →
      ∀ host, netSplitHostPort r.RemoteAddr = some host → extractIP r = host) ∧
    (r.Header "X-Forwarded-For" = "" → r.Header "X-Real-IP" = "" →
      netSplitHostPort r.RemoteAddr = none → extractIP r = r.RemoteAddr) ∧
    (∀ host port : List Char,
      (∀ c ∈ host, c ≠ ':' ∧ c ≠ '[' ∧ c ≠ ']') →
      (∀ c ∈ port, c ≠ ':' ∧ c ≠ '[' ∧ c ≠ ']') →
      netSplitHostPort (String.mk (host ++ ':' :: port)) = some (String.mk host)) ∧
    (':' ∉ r.RemoteAddr.data → netSplitHostPort r.RemoteAddr = none) := by
  refine ⟨?_, ?_, ?_, ?_, netSplitHostPort_plain, netSplitHostPort_no_colon r.RemoteAddr⟩
  · intro hf
    have heq : extractIP r = stringsTrimSpace
        (String.mk ((r.Header "X-Forwarded-For").data.takeWhile
          (fun c => decide (c ≠ ',')))) := by
      simp only [extractIP, hf, ne_eq, not_false_eq_true, if_true, stringsSplitComma_head]
    refine ⟨heq, ?_⟩
    rw [heq]
    exact stringsTrimSpace_spec _
  · intro hf hr
    simp [extractIP, hf, hr]
  · intro hf hr host hh
    simp [extractIP, hf, hr, hh]
  · intro hf hr hh
    simp [extractIP, hf, hr, hh]

theorem extractIP_priority_witness :
    forwardedRequest.Header "X-Forwarded-For" ≠ "" ∧
    extractIP forwardedRequest = "203.0.113.9" ∧
    (realIPRequest.Header "X-Forwarded-For" = "" ∧ realIPRequest.Header "X-Real-IP" ≠ "" ∧
      realIPRequest.Header "X-Real-IP" = "198.51.100.7" ∧
      extractIP realIPRequest = realIPRequest.Header "X-Real-IP") ∧
    (netSplitHostPort sampleRequest.RemoteAddr = some "10.0.0.1" ∧
      extractIP sampleRequest = "10.0.0.1") ∧
    (netSplitHostPort bareRequest.RemoteAddr = none ∧
      extractIP bareRequest = bareRequest.RemoteAddr) :=
  ⟨by decide,
    ((extractIP_priority forwardedRequest).1 (by decide)).1.trans (by decide),
    ⟨by decide, by decide, by decide,
      (extractIP_priority realIPRequest).2.1 (by decide) (by decide)⟩,
    ⟨by decide,
      (extractIP_priority sampleRequest).2.2.1 (by decide) (by decide) "10.0.0.1" (by decide)⟩,
    ⟨by decide,
      (extractIP_priority bareRequest).2.2.2.1 (by decide) (by decide) (by decide)⟩⟩

/-! ## The key -/

theorem toDigitsCore_eq (fuel : Nat) :
    ∀ (n : Nat) (ds : List Char), n < fuel →
      Nat.toDigitsCore 10 fuel n ds = Nat.toDigits 10 n ++ ds := by
  induction fuel using Nat.strong_induction_on with
  | _ fuel ih =>
    intro n ds hlt
    cases fuel with
    | zero => omega
    | succ f =>
      unfold Nat.toDigits
      simp only [Nat.toDigitsCore]
      by_cases h0 : n / 10 = 0
      · simp [h0]
      · simp only [h0, if_false]
        have hdiv : n / 10 < n := by omega
        rw [ih f (by omega) (n / 10) _ (by omega), ih n (by omega) (n / 10) _ hdiv]
        simp

theorem toDigits_small (n : Nat) (h : n / 10 = 0) :
    Nat.toDigits 10 n = [Nat.digitChar (n % 10)] := by
  unfold Nat.toDigits
  simp [Nat.toDigitsCore, h]

theorem toDigits_large (n : Nat) (h : n / 10 ≠ 0) :
    Nat.toDigits 10 n = Nat.toDigits 10 (n / 10) ++ [Nat.digitChar (n % 10)] := by
  have hdiv : n / 10 < n := by omega
  conv_lhs => unfold Nat.toDigits
  simp only [Nat.toDigitsCore, h, if_false]
  exact toDigitsCore_eq n (n / 10) _ hdiv

theorem toDigits_ne_nil (n : Nat) : Nat.toDigits 10 n ≠ [] := by
  by_cases h : n / 10 = 0
  · rw [toDigits_small n h]; simp
  · rw [toDigits_large n h]; simp

theorem digitChar_injective : ∀ a < 10, ∀ b < 10,
    Nat.digitChar a = Nat.digitChar b → a = b := by
  decide

theorem digitChar_plain : ∀ a < 10, Nat.digitChar a ≠ ':' ∧ Nat.digitChar a ≠ '-' := by
  decide

theorem toDigits_plain (n : Nat) : ∀ c ∈ Nat.toDigits 10 n, c ≠ ':' ∧ c ≠ '-' := by
  induction n using Nat.strong_induction_on with
  | _ n ih =>
    intro c hc
    by_cases h : n / 10 = 0
    · rw [toDigits_small n h, List.mem_singleton] at hc
      rw [hc]
      exact digitChar_plain (n % 10) (Nat.mod_lt _ (by decide))
    · rw [toDigits_large n h, List.mem_append, List.mem_singleton] at hc
      rcases hc with hc | hc
      · exact ih (n / 10) (by omega) c hc
      · rw [hc]
        exact digitChar_plain (n % 10) (Nat.mod_lt _ (by decide))

theorem toDigits_injective (n : Nat) : ∀ m, Nat.toDigits 10 n = Nat.toDigits 10 m → n = m := by
  induction n using Nat.strong_induction_on with
  | _ n ih =>
    intro m heq
    have hn := Nat.mod_lt n (by decide : 10 > 0)
    have hm := Nat.mod_lt m (by decide : 10 > 0)
    by_cases h1 : n / 10 = 0
    · by_cases h2 : m / 10 = 0
      · rw [toDigits_small n h1, toDigits_small m h2] at heq
        have := digitChar_injective _ hn _ hm (List.singleton_inj.mp heq)
        omega
      · rw [toDigits_small n h1, toDigits_large m h2] at heq
        have hlen := congrArg List.length heq
        simp only [List.length_singleton, List.length_append] at hlen
        have : Nat.toDigits 10 (m / 10) = [] := List.length_eq_zero.mp (by omega)
        exact absurd this (toDigits_ne_nil _)
    · by_cases h2 : m / 10 = 0
      · rw [toDigits_large n h1, toDigits_small m h2] at heq
        have hlen := congrArg List.length heq
        simp only [List.length_singleton, List.length_append] at hlen
        have : Nat.toDigits 10 (n / 10) = [] := List.length_eq_zero.mp (by omega)
        exact absurd this (toDigits_ne_nil _)
      · rw [toDigits_large n h1, toDigits_large m h2] at heq
        obtain ⟨hinit, hlast⟩ := List.append_inj' heq rfl
        have hq := ih (n / 10) (by omega) (m / 10) hinit
        have hr := digitChar_injective _ hn _ hm (List.singleton_inj.mp hlast)
        omega

theorem fmtD_ofNat (n : Nat) : (fmtD (Int.ofNat n)).data = Nat.toDigits 10 n := rfl

theorem fmtD_negSucc (n : Nat) :
    (fmtD (Int.negSucc n)).data = '-' :: Nat.toDigits 10 (n + 1) := rfl

theorem fmtD_no_colon (i : Int) : ':' ∉ (fmtD i).data := by
  cases i with
  | ofNat n =>
    rw [fmtD_ofNat]
    exact fun h => (toDigits_plain n _ h).1 rfl
  | negSucc n =>
    rw [fmtD_negSucc, List.mem_cons]
    rintro (h | h)
    · exact absurd h (by decide)
    · exact (toDigits_plain _ _ h).1 rfl

theorem toDigits_head_ne_minus (n : Nat) (rest : List Char) :
    Nat.toDigits 10 n ≠ '-' :: rest := by
  intro h
  have hmem : '-' ∈ Nat.toDigits 10 n := by rw [h]; exact List.mem_cons_self _ _
  exact (toDigits_plain n _ hmem).2 rfl

theorem fmtD_injective (i j : Int) (h : (fmtD i).data = (fmtD j).data) : i = j := by
  cases i with
  | ofNat n =>
    cases j with
    | ofNat m =>
      rw [fmtD_ofNat, fmtD_ofNat] at h
      rw [toDigits_injective n m h]
    | negSucc m =>
      rw [fmtD_ofNat, fmtD_negSucc] at h
      exact absurd h (toDigits_head_ne_minus _ _)
  | negSucc n =>
    cases j with
    | ofNat m =>
      rw [fmtD_ofNat, fmtD_negSucc] at h
      exact absurd h.symm (toDigits_head_ne_minus _ _)
    | negSucc m =>
      rw [fmtD_negSucc, fmtD_negSucc] at h
      have := toDigits_injective _ _ (List.cons.inj h).2
      have hnm : n = m := by omega
      rw [hnm]

theorem split_at_first (c : Char) (a : List Char) :
    ∀ (b x y : List Char), c ∉ a → c ∉ b → a ++ c :: x = b ++ c :: y → a = b ∧ x = y := by
  induction a with
  | nil =>
    intro b x y _ hb h
    cases b with
    | nil => exact ⟨rfl, (List.cons.inj h).2⟩
    | cons b0 bs =>
      have h0 : c = b0 := (List.cons.inj h).1
      exact absurd (h0 ▸ List.mem_cons_self _ _) hb
  | cons a0 as ih =>
    intro b x y ha hb h
    cases b with
    | nil =>
      have h0 : a0 = c := (List.cons.inj h).1
      exact absurd (h0 ▸ List.mem_cons_self _ _) ha
    | cons b0 bs =>
      obtain ⟨h0, hrest⟩ := List.cons.inj h
      have := ih bs x y (fun hc => ha (List.mem_cons_of_mem _ hc))
        (fun hc => hb (List.mem_cons_of_mem _ hc)) hrest
      exact ⟨by rw [h0, this.1], this.2⟩

theorem viewKey_data (req : ViewRequest) :
    (viewKey req).data =
      req.IP.data ++ ':' :: (req.UserAgent.data ++ ':' ::
        ((fmtD req.ObjectID).data ++ ':' :: req.TableName.data)) := by
  simp [viewKey, String.data_append]

theorem viewKey_fields (a b : ViewRequest)
    (ha1 : ':' ∉ a.IP.data) (ha2 : ':' ∉ a.UserAgent.data)
    (hb1 : ':' ∉ b.IP.data) (hb2 : ':' ∉ b.UserAgent.data)
    (h : viewKey a = viewKey b) :
    a.IP = b.IP ∧ a.UserAgent = b.UserAgent ∧ a.ObjectID = b.ObjectID ∧
      a.TableName = b.TableName := by
  have hd := congrArg String.data h
  rw [viewKey_data, viewKey_data] at hd
  obtain ⟨h1, hd⟩ := split_at_first ':' _ _ _ _ ha1 hb1 hd
  obtain ⟨h2, hd⟩ := split_at_first ':' _ _ _ _ ha2 hb2 hd
  obtain ⟨h3, h4⟩ := split_at_first ':' _ _ _ _ (fmtD_no_colon _) (fmtD_no_colon _) hd
  exact ⟨String.ext h1, String.ext h2, fmtD_injective _ _ h3, String.ext h4⟩

/-- C18, as the code has it: two requests that agree on IP, user agent, object
id and table name have the same key, and `IsOrganicView` reads the history that
`TrackView` wrote under that key. The key determines the four fields when the
IP and the user agent of both requests contain no colon; with a colon in one of
them two different requests can have the same key. -/
theorem viewKey_injective_without_colons (a b : ViewRequest) (vt : ViewTracker)
    (now : Int) :
    (a.IP = b.IP → a.UserAgent = b.UserAgent → a.ObjectID = b.ObjectID →
      a.TableName = b.TableName → viewKey a = viewKey b) ∧
    (':' ∉ a.IP.data → ':' ∉ a.UserAgent.data → ':' ∉ b.IP.data →
      ':' ∉ b.UserAgent.data → viewKey a = viewKey b →
      a.IP = b.IP ∧ a.UserAgent = b.UserAgent ∧ a.ObjectID = b.ObjectID ∧
        a.TableName = b.TableName) ∧
    (viewKey a = viewKey b →
      IsOrganicView (TrackView vt a) b now =
        decide (now - a.Timestamp > window vt)) := by
  refine ⟨?_, viewKey_fields a b, ?_⟩
  · intro h1 h2 h3 h4
    simp only [viewKey, h1, h2, h3, h4]
  · intro hk
    have hlast : (mapIndex (TrackView vt a).viewHistory (viewKey b)).getLast? = some a := by
      rw [← hk, mapIndex_TrackView_self, List.getLast?_concat]
    rw [isOrganicView_of_last (TrackView vt a) b now a hlast]
    rfl

theorem viewKey_injective_without_colons_witness :
    ':' ∉ (sampleEvent 0).IP.data ∧ ':' ∉ (sampleEvent 0).UserAgent.data ∧
    viewKey (sampleEvent 0) = viewKey (sampleEvent 9) ∧
    ((sampleEvent 0).IP = (sampleEvent 9).IP ∧
      (sampleEvent 0).UserAgent = (sampleEvent 9).UserAgent ∧
      (sampleEvent 0).ObjectID = (sampleEvent 9).ObjectID ∧
      (sampleEvent 0).TableName = (sampleEvent 9).TableName) :=
  ⟨by decide, by decide, by decide,
    (viewKey_injective_without_colons (sampleEvent 0) (sampleEvent 9) downTracker 0).2.1
      (by decide) (by decide) (by decide) (by decide) (by decide)⟩

/-- C18 fails as stated: the client fe80::1 with user agent `agent` and the
client fe80 with user agent `:1:agent` have the same key for the same object, so
after the first is recorded the second is judged against its history, and is not
organic. -/
theorem viewKey_collision :
    colonEvent.IP ≠ shiftedEvent.IP ∧
    viewKey colonEvent = viewKey shiftedEvent ∧
    IsOrganicView (TrackView downTracker colonEvent) shiftedEvent 50 = false := by
  decide

/-! ## Sweep against decision -/

theorem le_last_of_sorted (l : List ViewRequest) (last : ViewRequest)
    (hsorted : l.Pairwise (fun a b => a.Timestamp ≤ b.Timestamp))
    (hlast : l.getLast? = some last) : ∀ e ∈ l, e.Timestamp ≤ last.Timestamp := by
  obtain ⟨ys, rfl⟩ := List.getLast?_eq_some_iff.mp hlast
  intro e he
  rw [List.mem_append, List.mem_singleton] at he
  rcases he with he | rfl
  · exact (List.pairwise_append.mp hsorted).2.2 e he last (List.mem_singleton.mpr rfl)
  · exact le_refl _

theorem isOrganicView_after_sweep (vt : ViewTracker) (req : ViewRequest) (s n : Int)
    (last : ViewRequest)
    (hsorted : (mapIndex vt.viewHistory (viewKey req)).Pairwise
      (fun a b => a.Timestamp ≤ b.Timestamp))
    (hlast : (mapIndex vt.viewHistory (viewKey req)).getLast? = some last) :
    (cutoffAt vt s < last.Timestamp →
      IsOrganicView (cleanOldRecords vt s) req n = IsOrganicView vt req n) ∧
    (last.Timestamp ≤ cutoffAt vt s → IsOrganicView (cleanOldRecords vt s) req n = true) := by
  constructor
  · intro hrecent
    have hkept := mapIndex_cleanOldRecords_last vt s (viewKey req) last hlast hrecent
    rw [isOrganicView_of_last (cleanOldRecords vt s) req n last hkept,
      isOrganicView_of_last vt req n last hlast]
    rfl
  · intro hold
    apply isOrganicView_of_nil
    rw [mapIndex_cleanOldRecords, List.filter_eq_nil_iff]
    intro e he
    have := le_last_of_sorted _ last hsorted hlast e he
    simp only [decide_eq_true_eq, not_lt]
    omega

/-- C19: for a key whose sequence is in ascending timestamp order and all times
`s ≤ n`, `IsOrganicView` at `n` after `cleanOldRecords` ran at `s` equals
`IsOrganicView` at `n` before that sweep, unless `n = s` and the last event of the
key has timestamp exactly `s - window`, where the store before the sweep answers
not organic and the store after it answers organic. That exception does occur
whenever the negation of the window is an `int64`. -/
theorem sweep_agrees_with_decision (vt : ViewTracker) (req : ViewRequest) (s n : Int)
    (hsn : s ≤ n)
    (hsorted : (mapIndex vt.viewHistory (viewKey req)).Pairwise
      (fun a b => a.Timestamp ≤ b.Timestamp)) :
    ((mapIndex vt.viewHistory (viewKey req)).getLast? = none →
      IsOrganicView (cleanOldRecords vt s) req n = IsOrganicView vt req n) ∧
    (∀ last, (mapIndex vt.viewHistory (viewKey req)).getLast? = some last →
      (IsOrganicView (cleanOldRecords vt s) req n = IsOrganicView vt req n ∨
        (n = s ∧ last.Timestamp = s - window vt ∧ IsOrganicView vt req n = false ∧
          IsOrganicView (cleanOldRecords vt s) req n = true))) ∧
    (∀ last, (mapIndex vt.viewHistory (viewKey req)).getLast? = some last →
      window vt ≠ minDuration → n = s → last.Timestamp = s - window vt →
      IsOrganicView vt req n = false ∧
        IsOrganicView (cleanOldRecords vt s) req n = true) := by
  refine ⟨?_, ?_, ?_⟩
  · intro hnone
    have hnil : mapIndex vt.viewHistory (viewKey req) = [] := List.getLast?_eq_none_iff.mp hnone
    have hnil2 : mapIndex (cleanOldRecords vt s).viewHistory (viewKey req) = [] := by
      rw [mapIndex_cleanOldRecords, hnil]; rfl
    rw [isOrganicView_of_nil _ _ _ hnil, isOrganicView_of_nil _ _ _ hnil2]
  · intro last hlast
    obtain ⟨hkeep, hdrop⟩ := isOrganicView_after_sweep vt req s n last hsorted hlast
    by_cases hrecent : cutoffAt vt s < last.Timestamp
    · exact Or.inl (hkeep hrecent)
    · have hold : last.Timestamp ≤ cutoffAt vt s := by omega
      have hpost := hdrop hold
      have hpre := isOrganicView_of_last vt req n last hlast
      have hrange := window_range vt
      unfold minDuration maxDuration at hrange
      by_cases hmin : window vt = minDuration
      · left
        rw [hpost, hpre]
        have hcut := cutoffAt_eq_add_neg vt s
        rw [hmin] at hcut
        have hval : cutoffAt vt s = s - 9223372036854775808 := by
          rw [hcut]; unfold timeAdd durNeg wrap64 minDuration; omega
        unfold minDuration at hmin
        symm
        rw [decide_eq_true_eq]
        omega
      · rw [cutoffAt_eq vt s hmin] at hold
        by_cases hgt : n - last.Timestamp > window vt
        · left
          rw [hpost, hpre]
          symm
          rw [decide_eq_true_eq]
          exact hgt
        · right
          refine ⟨by omega, by omega, ?_, hpost⟩
          rw [hpre, decide_eq_false_iff_not]
          exact hgt
  · intro last hlast hmin hns hts
    obtain ⟨_, hdrop⟩ := isOrganicView_after_sweep vt req s n last hsorted hlast
    refine ⟨?_, hdrop (by rw [cutoffAt_eq vt s hmin]; omega)⟩
    rw [isOrganicView_of_last vt req n last hlast, decide_eq_false_iff_not]
    omega

theorem sweep_agrees_with_decision_witness :
    (60000000100 : Int) ≤ 60000000100 ∧
    (mapIndex seenTwice.viewHistory (viewKey (sampleEvent 7))).Pairwise
      (fun a b => a.Timestamp ≤ b.Timestamp) ∧
    (mapIndex seenTwice.viewHistory (viewKey (sampleEvent 7))).getLast? =
      some (sampleEvent 100) ∧
    window seenTwice ≠ minDuration ∧
    (sampleEvent 100).Timestamp = 60000000100 - window seenTwice ∧
    (IsOrganicView seenTwice (sampleEvent 7) 60000000100 = false ∧
      IsOrganicView (cleanOldRecords seenTwice 60000000100) (sampleEvent 7) 60000000100 =
        true) :=
  ⟨by decide, by decide, by decide, by decide, by decide,
    (sweep_agrees_with_decision seenTwice (sampleEvent 7) 60000000100 60000000100
      (by decide) (by decide)).2.2 (sampleEvent 100) (by decide) (by decide) rfl (by decide)⟩

/-! ## The window -/

theorem isOrganicView_eq_since (vt : ViewTracker) (req : ViewRequest) (now : Int)
    (last : ViewRequest)
    (h : (mapIndex vt.viewHistory (viewKey req)).getLast? = some last) :
    IsOrganicView vt req now = decide (timeSince now last.Timestamp > window vt) := by
  rw [isOrganicView_of_last vt req now last h]
  exact decide_eq_decide.mpr (timeSince_gt_window vt now last.Timestamp).symm

/-- C20: the window that `IsOrganicView` compares with and that
`cleanOldRecords` subtracts from the clock is `minutesGap * time.Minute` in
`int64`, that is `minutesGap * 60000000000` wrapped modulo 2^64 into the signed
range. It is `minutesGap` minutes exactly when the absolute value of
`minutesGap` is at most 153722867; for every larger value the product overflows
and the window is another number. -/
theorem window_is_wrapped_product (vt : ViewTracker) (req : ViewRequest) (now : Int) :
    window vt =
      (vt.minutesGap * 60000000000 + 9223372036854775808) % 18446744073709551616 -
        9223372036854775808 ∧
    (∀ last, (mapIndex vt.viewHistory (viewKey req)).getLast? = some last →
      IsOrganicView vt req now = decide (timeSince now last.Timestamp > window vt)) ∧
    cutoffAt vt now = timeAdd now (durNeg (window vt)) ∧
    (window vt = vt.minutesGap * 60000000000 ↔
      (-153722867 ≤ vt.minutesGap ∧ vt.minutesGap ≤ 153722867)) := by
  refine ⟨rfl, isOrganicView_eq_since vt req now, cutoffAt_eq_add_neg vt now, ?_⟩
  unfold window durMul wrap64 Minute
  constructor
  · intro h; omega
  · intro h; omega

theorem window_is_wrapped_product_witness :
    (mapIndex seenTwice.viewHistory (viewKey (sampleEvent 7))).getLast? =
      some (sampleEvent 100) ∧
    IsOrganicView seenTwice (sampleEvent 7) 200 =
      decide (timeSince 200 (sampleEvent 100).Timestamp > window seenTwice) ∧
    scaledTwice.minutesGap = 30 * Minute ∧
    window scaledTwice = -5686551569424711680 ∧
    ¬ (window scaledTwice = scaledTwice.minutesGap * 60000000000) :=
  ⟨by decide,
    (window_is_wrapped_product seenTwice (sampleEvent 7) 200).2.1 (sampleEvent 100)
      (by decide),
    by decide, by decide,
    fun h => absurd ((window_is_wrapped_product scaledTwice (sampleEvent 7) 0).2.2.2.mp h).2
      (by decide)⟩
/-! ## Sequential runs -/

theorem stepRun_view_ok (s : RunState) (r : Request) (tableName : String)
    (id now since : Int) (pre mid : List Int) (hdb : ∀ q a, s.vt.db q a = none) :
    stepRun s (.view r tableName id now since pre mid) =
      ⟨TrackView (runSweeps s.vt (pre ++ mid)) (mkRequest r tableName id now),
        s.calls ++ [⟨viewKey (mkRequest r tableName id now), now, since,
          IsOrganicView (runSweeps s.vt pre) (mkRequest r tableName id now) since⟩]⟩ := by
  cases horg : IsOrganicView (runSweeps s.vt pre) (mkRequest r tableName id now) since with
  | false =>
    simp [stepRun, handleView_not_organic s.vt r tableName id now since pre mid horg]
  | true =>
    simp [stepRun,
      handleView_organic_ok s.vt r tableName id now since pre mid horg (hdb _ _)]

theorem stepRun_fields (s : RunState) (st : Step) :
    (stepRun s st).vt.db = s.vt.db ∧ (stepRun s st).vt.minutesGap = s.vt.minutesGap := by
  cases st with
  | sweep t => exact ⟨rfl, rfl⟩
  | view r tableName id now since pre mid =>
    have hf := runSweeps_fields (pre ++ mid) s.vt
    simp only [stepRun]
    rcases handleView_vt_cases s.vt r tableName id now since pre mid with h | h
    · rw [h]; exact hf
    · rw [h]; exact hf

theorem clockAfter_append (c : Int) (l1 l2 : List Int) :
    clockAfter c (l1 ++ l2) = clockAfter (clockAfter c l1) l2 := by
  simp [clockAfter, List.foldl_append]

theorem chain_append_clock (l1 : List Int) :
    ∀ (c : Int) (l2 : List Int), List.Chain (fun x y => x ≤ y) c (l1 ++ l2) →
      List.Chain (fun x y => x ≤ y) c l1 ∧
        List.Chain (fun x y => x ≤ y) (clockAfter c l1) l2 := by
  induction l1 with
  | nil => intro c l2 h; exact ⟨List.Chain.nil, h⟩
  | cons t rest ih =>
    intro c l2 h
    rw [List.cons_append, List.chain_cons] at h
    obtain ⟨h1, h2⟩ := ih t l2 h.2
    exact ⟨List.chain_cons.mpr ⟨h.1, h1⟩, h2⟩

theorem le_clockAfter (l : List Int) :
    ∀ c : Int, List.Chain (fun x y => x ≤ y) c l → c ≤ clockAfter c l := by
  induction l with
  | nil => intro c _; exact le_refl _
  | cons t rest ih =>
    intro c h
    rw [List.chain_cons] at h
    exact le_trans h.1 (ih t h.2)

theorem runInv_mono (w : Int) (calls : List CallRecord) (vt : ViewTracker) (c later : Int)
    (hle : c ≤ later) (hinv : RunInv w calls vt c) : RunInv w calls vt later := by
  intro a ha
  obtain ⟨h1, h2⟩ := hinv a ha
  exact ⟨by omega, fun hlt => h2 (by omega)⟩

theorem runInv_sweep (calls : List CallRecord) (vt : ViewTracker) (c t : Int)
    (hle : c ≤ t) (hinv : RunInv (window vt) calls vt c) :
    RunInv (window vt) calls (cleanOldRecords vt t) t := by
  intro a ha
  obtain ⟨h1, hpres⟩ := hinv a ha
  refine ⟨by omega, ?_⟩
  intro hlt
  obtain ⟨last, hlast, hts⟩ := hpres (by omega)
  refine ⟨last, ?_, hts⟩
  apply mapIndex_cleanOldRecords_last vt t a.key last hlast
  have hmin : window vt ≠ minDuration := by
    unfold minDuration; omega
  rw [cutoffAt_eq vt t hmin]
  omega

theorem runInv_sweeps (calls : List CallRecord) (w : Int) (times : List Int) :
    ∀ (vt : ViewTracker) (c : Int), window vt = w →
      List.Chain (fun x y => x ≤ y) c times → RunInv w calls vt c →
      RunInv w calls (runSweeps vt times) (clockAfter c times) := by
  induction times with
  | nil => intro vt c _ _ hinv; exact hinv
  | cons t rest ih =>
    intro vt c hw hchain hinv
    rw [List.chain_cons] at hchain
    have hstep : RunInv w calls (cleanOldRecords vt t) t := by
      rw [← hw]; exact runInv_sweep calls vt c t hchain.1 (hw ▸ hinv)
    exact ih (cleanOldRecords vt t) t (by rw [← hw]; rfl) hchain.2 hstep

theorem runInv_track (w : Int) (calls : List CallRecord) (vt : ViewTracker) (c : Int)
    (req : ViewRequest) (since : Int) (flag : Bool)
    (hold : ∀ a ∈ calls, a.time ≤ req.Timestamp) (hnow : req.Timestamp ≤ c)
    (hinv : RunInv w calls vt c) :
    RunInv w (calls ++ [⟨viewKey req, req.Timestamp, since, flag⟩]) (TrackView vt req) c := by
  intro a ha
  simp only [List.mem_append, List.mem_singleton] at ha
  rcases ha with ha | rfl
  · obtain ⟨hle, hpres⟩ := hinv a ha
    refine ⟨hle, ?_⟩
    intro hlt
    obtain ⟨last, hlast, hts⟩ := hpres hlt
    by_cases hk : a.key = viewKey req
    · refine ⟨req, ?_, hold a ha⟩
      simp only [hk, mapIndex_TrackView_self, List.getLast?_concat]
    · exact ⟨last, by simpa only [mapIndex_TrackView_ne _ _ _ hk] using hlast, hts⟩
  · refine ⟨hnow, ?_⟩
    intro _
    refine ⟨req, ?_, le_refl _⟩
    simp only [mapIndex_TrackView_self, List.getLast?_concat]

theorem not_organic_while_recent (w : Int) (calls : List CallRecord) (vt : ViewTracker)
    (since : Int) (req : ViewRequest) (hw : window vt = w)
    (hinv : RunInv w calls vt since) (horg : IsOrganicView vt req since = true) :
    ∀ a ∈ calls, a.key = viewKey req → ¬ since - a.time < w := by
  intro a ha hk hlt
  obtain ⟨_, hpres⟩ := hinv a ha
  obtain ⟨last, hlast, hts⟩ := hpres hlt
  rw [hk] at hlast
  have hdec := isOrganicView_of_last vt req since last hlast
  rw [horg, hw] at hdec
  have hgt : since - last.Timestamp > w := by simpa using hdec.symm
  omega

theorem run_step (w : Int) (s : RunState) (st : Step) (c : Int)
    (hw : window s.vt = w) (hdb : ∀ q a, s.vt.db q a = none)
    (hchain : List.Chain (fun x y => x ≤ y) c st.readings)
    (hinv : RunInv w s.calls s.vt c)
    (hpw : s.increments.Pairwise (fun a b =>
      a.time ≤ b.time ∧ (a.key = b.key → ¬ b.since - a.time < w))) :
    RunInv w (stepRun s st).calls (stepRun s st).vt (clockAfter c st.readings) ∧
    (stepRun s st).increments.Pairwise (fun a b =>
      a.time ≤ b.time ∧ (a.key = b.key → ¬ b.since - a.time < w)) := by
  cases st with
  | sweep t =>
    simp only [Step.readings, List.chain_cons] at hchain
    refine ⟨?_, hpw⟩
    simp only [stepRun, Step.readings, clockAfter, List.foldl_cons, List.foldl_nil]
    rw [← hw]
    exact runInv_sweep s.calls s.vt c t hchain.1 (hw ▸ hinv)
  | view r tableName id now since pre mid =>
    rw [stepRun_view_ok s r tableName id now since pre mid hdb]
    simp only [Step.readings, List.chain_cons] at hchain
    obtain ⟨hcnow, hrest⟩ := hchain
    obtain ⟨hpre, hrest⟩ := chain_append_clock pre now (since :: mid) hrest
    rw [List.chain_cons] at hrest
    obtain ⟨hsince, hmid⟩ := hrest
    have hclock : clockAfter c (now :: (pre ++ since :: mid)) = clockAfter since mid := by
      simp [clockAfter, List.foldl_append]
    have hnowpre := le_clockAfter pre now hpre
    have hsincemid := le_clockAfter mid since hmid
    -- the sweeps before the decision
    have hinv0 := runInv_mono w s.calls s.vt c now hcnow hinv
    have hinv1 := runInv_sweeps s.calls w pre s.vt now hw hpre hinv0
    have hinv2 := runInv_mono w s.calls _ _ since hsince hinv1
    have hw1 : window (runSweeps s.vt pre) = w := by
      rw [← hw]; exact window_congr _ _ (runSweeps_fields pre s.vt).2
    -- the sweeps between the decision and the record
    have hinv3 := runInv_sweeps s.calls w mid (runSweeps s.vt pre) since hw1 hmid hinv2
    rw [runSweeps_append] at hinv3
    have hold : ∀ a ∈ s.calls, a.time ≤ (mkRequest r tableName id now).Timestamp := by
      intro a ha
      have := (hinv a ha).1
      show a.time ≤ now
      omega
    have hinv4 := runInv_track w s.calls (runSweeps s.vt (pre ++ mid)) (clockAfter since mid)
      (mkRequest r tableName id now) since
      (IsOrganicView (runSweeps s.vt pre) (mkRequest r tableName id now) since) hold
      (by show now ≤ clockAfter since mid; omega) hinv3
    refine ⟨by show RunInv w _ _ (clockAfter c (now :: (pre ++ since :: mid))); rw [hclock]; exact hinv4, ?_⟩
    unfold RunState.increments at *
    simp only [List.filter_append]
    cases horg : IsOrganicView (runSweeps s.vt pre) (mkRequest r tableName id now) since with
    | false => simpa [List.filter_cons] using hpw
    | true =>
      simp only [List.filter_cons, List.filter_nil, if_true]
      rw [List.pairwise_append]
      refine ⟨hpw, List.pairwise_singleton _ _, ?_⟩
      intro a ha b hb
      rw [List.mem_singleton] at hb
      subst hb
      have hmem := (List.mem_filter.mp ha).1
      refine ⟨hold a hmem, ?_⟩
      intro hk
      exact not_organic_while_recent w s.calls (runSweeps s.vt pre) since
        (mkRequest r tableName id now) hw1 hinv2 horg a hmem hk

theorem run_invariant (w : Int) (steps : List Step) :
    ∀ (s : RunState) (c : Int), window s.vt = w → (∀ q a, s.vt.db q a = none) →
      List.Chain (fun x y => x ≤ y) c (readingsOf steps) → RunInv w s.calls s.vt c →
      s.increments.Pairwise (fun a b =>
        a.time ≤ b.time ∧ (a.key = b.key → ¬ b.since - a.time < w)) →
      (steps.foldl stepRun s).increments.Pairwise (fun a b =>
        a.time ≤ b.time ∧ (a.key = b.key → ¬ b.since - a.time < w)) := by
  induction steps with
  | nil => intro s c _ _ _ _ hpw; exact hpw
  | cons st rest ih =>
    intro s c hw hdb hchain hinv hpw
    simp only [readingsOf] at hchain
    obtain ⟨h1, h2⟩ := chain_append_clock st.readings c (readingsOf rest) hchain
    obtain ⟨hinv2, hpw2⟩ := run_step w s st c hw hdb h1 hinv hpw
    have hf := stepRun_fields s st
    rw [List.foldl_cons]
    refine ih (stepRun s st) (clockAfter c st.readings) ?_ ?_ h2 hinv2 hpw2
    · rw [← hw]; exact window_congr _ _ hf.2
    · intro q a; rw [hf.1]; exact hdb q a

theorem chain_of_pairwise (l : List Int) (h : l.Pairwise (fun x y => x ≤ y)) :
    ∀ c, (∀ x ∈ l.head?, c ≤ x) → List.Chain (fun x y => x ≤ y) c l := by
  intro c hc
  cases l with
  | nil => exact List.Chain.nil
  | cons x rest =>
    rw [List.chain_cons]
    exact ⟨hc x rfl, List.Pairwise.chain' h⟩

/-- C4, as the code has it: in every sequential run from an empty store of
`HandleView` calls whose increments succeed, with the sweeps they start and
sweeps between them running in any order under a non-decreasing clock, the calls
that invoked the increment are in time order, and no two of them for the same
key are such that the second was decided (the `time.Since` reading of line 111)
less than the window after the time the first stamped on its event (line 128).
(At exactly the window, and when the second is stamped inside the window but
decided after it, both can increment.) -/
theorem increments_spaced_by_window (db : DBExecutor) (gap : Int) (steps : List Step)
    (hdb : ∀ q a, db q a = none)
    (hmono : (readingsOf steps).Pairwise (fun x y => x ≤ y)) :
    (run ⟨[], db, gap⟩ steps).increments.Pairwise (fun a b =>
      a.time ≤ b.time ∧
        (a.key = b.key → ¬ b.since - a.time < window ⟨[], db, gap⟩)) := by
  cases hr : readingsOf steps with
  | nil =>
    refine run_invariant _ steps ⟨⟨[], db, gap⟩, []⟩ 0 rfl hdb ?_ ?_ ?_
    · rw [hr]; exact List.Chain.nil
    · intro a ha; simp at ha
    · simp [RunState.increments]
  | cons first rest =>
    refine run_invariant _ steps ⟨⟨[], db, gap⟩, []⟩ first rfl hdb ?_ ?_ ?_
    · apply chain_of_pairwise _ hmono
      rw [hr]
      intro x hx
      simp only [List.head?_cons, Option.mem_def, Option.some.injEq] at hx
      omega
    · intro a ha; simp at ha
    · simp [RunState.increments]

theorem increments_spaced_by_window_witness :
    (∀ q a, okDB q a = none) ∧
    (readingsOf boundarySteps).Pairwise (fun x y => x ≤ y) ∧
    (run ⟨[], okDB, 1⟩ boundarySteps).increments.Pairwise (fun a b =>
      a.time ≤ b.time ∧
        (a.key = b.key → ¬ b.since - a.time < window ⟨[], okDB, 1⟩)) :=
  ⟨fun _ _ => rfl, by decide,
    increments_spaced_by_window okDB 1 boundarySteps (fun _ _ => rfl) (by decide)⟩

/-- C4 fails as stated: with a one-minute gap, a view at time 0 and a second
view of the same key exactly one minute later, whose sweep runs before its
decision, both invoke the increment; so do a view at 0 and a second view stamped
a nanosecond less than a minute later and decided after the minute has passed,
with no sweep at all. In both runs the two calls are no more than the window
apart. -/
theorem increments_twice_within_window :
    (readingsOf boundarySteps).Pairwise (fun x y => x ≤ y) ∧
    (run ⟨[], okDB, 1⟩ boundarySteps).calls =
      [⟨sampleKey, 0, 0, true⟩, ⟨sampleKey, 60000000000, 60000000000, true⟩] ∧
    (60000000000 : Int) - 0 ≤ window ⟨[], okDB, 1⟩ ∧
    (readingsOf lateDecisionSteps).Pairwise (fun x y => x ≤ y) ∧
    (run ⟨[], okDB, 1⟩ lateDecisionSteps).calls =
      [⟨sampleKey, 0, 0, true⟩, ⟨sampleKey, 59999999999, 60000000001, true⟩] ∧
    (59999999999 : Int) - 0 < window ⟨[], okDB, 1⟩ := by
  decide

theorem keyInv_mono (w : Int) (key : String) (calls : List CallRecord) (vt : ViewTracker)
    (c later : Int) (hle : c ≤ later) (hinv : KeyInv w key calls vt c) :
    KeyInv w key calls vt later := by
  refine ⟨hinv.1, ?_⟩
  intro a ha
  obtain ⟨h1, h2, h3, h4⟩ := hinv.2 a ha
  exact ⟨by omega, h2, h3, fun hlt => h4 (by omega)⟩

theorem keyInv_sweep (key : String) (calls : List CallRecord) (vt : ViewTracker) (c t : Int)
    (hle : c ≤ t) (hinv : KeyInv (window vt) key calls vt c) :
    KeyInv (window vt) key calls (cleanOldRecords vt t) t := by
  constructor
  · intro hnone
    rw [mapIndex_cleanOldRecords, hinv.1 hnone]
    rfl
  · intro a ha
    obtain ⟨h1, h2, h3, h4⟩ := hinv.2 a ha
    have hkeepLast : ∀ e ∈ mapIndex (cleanOldRecords vt t).viewHistory key,
        (mapIndex (cleanOldRecords vt t).viewHistory key).getLast? =
          (mapIndex vt.viewHistory key).getLast? ∧
        ∃ last, (mapIndex vt.viewHistory key).getLast? = some last := by
      intro e he
      rw [mapIndex_cleanOldRecords, List.mem_filter] at he
      have hne : mapIndex vt.viewHistory key ≠ [] := List.ne_nil_of_mem he.1
      obtain ⟨last, hlast⟩ := Option.isSome_iff_exists.mp (List.getLast?_isSome.mpr hne)
      have hts := h3 last hlast
      have he2 := h2 e he.1
      have hcut : cutoffAt vt t < e.Timestamp := by simpa using he.2
      have hrecent : cutoffAt vt t < last.Timestamp := by omega
      exact ⟨by rw [mapIndex_cleanOldRecords_last vt t key last hlast hrecent, hlast],
        last, hlast⟩
    refine ⟨by omega, ?_, ?_, ?_⟩
    · intro e he
      rw [mapIndex_cleanOldRecords] at he
      exact h2 e (List.mem_filter.mp he).1
    · intro last hlast
      have hmem : last ∈ mapIndex (cleanOldRecords vt t).viewHistory key :=
        List.mem_of_mem_getLast? hlast
      obtain ⟨heq, _⟩ := hkeepLast last hmem
      rw [heq] at hlast
      exact h3 last hlast
    · intro hlt
      have hne := h4 (by omega)
      obtain ⟨last, hlast⟩ := Option.isSome_iff_exists.mp (List.getLast?_isSome.mpr hne)
      have hts := h3 last hlast
      have hmin : window vt ≠ minDuration := by
        unfold minDuration; omega
      have hrecent : cutoffAt vt t < last.Timestamp := by
        rw [cutoffAt_eq vt t hmin]; omega
      have hkept := mapIndex_cleanOldRecords_last vt t key last hlast hrecent
      intro hnil
      rw [hnil] at hkept
      simp at hkept

theorem keyInv_sweeps (key : String) (calls : List CallRecord) (w : Int) (times : List Int) :
    ∀ (vt : ViewTracker) (c : Int), window vt = w →
      List.Chain (fun x y => x ≤ y) c times → KeyInv w key calls vt c →
      KeyInv w key calls (runSweeps vt times) (clockAfter c times) := by
  induction times with
  | nil => intro vt c _ _ hinv; exact hinv
  | cons t rest ih =>
    intro vt c hw hchain hinv
    rw [List.chain_cons] at hchain
    have hstep : KeyInv w key calls (cleanOldRecords vt t) t := by
      rw [← hw]; exact keyInv_sweep key calls vt c t hchain.1 (hw ▸ hinv)
    exact ih (cleanOldRecords vt t) t (by rw [← hw]; rfl) hchain.2 hstep

theorem keyInv_track (w : Int) (calls : List CallRecord) (vt : ViewTracker) (c : Int)
    (req : ViewRequest) (since : Int) (flag : Bool)
    (hold : ∀ a, calls.getLast? = some a → a.time ≤ req.Timestamp)
    (hnow : req.Timestamp ≤ c) (hinv : KeyInv w (viewKey req) calls vt c) :
    KeyInv w (viewKey req) (calls ++ [⟨viewKey req, req.Timestamp, since, flag⟩])
      (TrackView vt req) c := by
  constructor
  · intro hnone
    simp at hnone
  · intro a ha
    rw [List.getLast?_concat] at ha
    have ha2 := (Option.some.inj ha).symm
    subst ha2
    refine ⟨hnow, ?_, ?_, ?_⟩
    · intro e he
      rw [mapIndex_TrackView_self, List.mem_append, List.mem_singleton] at he
      rcases he with he | rfl
      · cases hl : calls.getLast? with
        | none =>
          rw [hinv.1 hl] at he
          simp at he
        | some prev =>
          have := (hinv.2 prev hl).2.1 e he
          have := hold prev hl
          show e.Timestamp ≤ req.Timestamp
          omega
      · exact le_refl _
    · intro last hlast
      rw [mapIndex_TrackView_self, List.getLast?_concat] at hlast
      rw [← Option.some.inj hlast]
    · intro _
      rw [mapIndex_TrackView_self]
      simp

theorem keyInv_decision (w : Int) (calls : List CallRecord) (vt : ViewTracker)
    (since : Int) (req : ViewRequest) (hw : window vt = w)
    (hinv : KeyInv w (viewKey req) calls vt since) :
    (calls.getLast? = none → IsOrganicView vt req since = true) ∧
    (∀ a, calls.getLast? = some a →
      (since - a.time > w → IsOrganicView vt req since = true) ∧
      (since - a.time < w → IsOrganicView vt req since = false)) := by
  constructor
  · intro hnone
    exact isOrganicView_of_nil vt req since (hinv.1 hnone)
  · intro a ha
    obtain ⟨_, _, h3, h4⟩ := hinv.2 a ha
    constructor
    · intro hgt
      cases hl : (mapIndex vt.viewHistory (viewKey req)).getLast? with
      | none => exact isOrganicView_of_nil vt req since (List.getLast?_eq_none_iff.mp hl)
      | some last =>
        rw [isOrganicView_of_last vt req since last hl, h3 last hl, hw, decide_eq_true_eq]
        exact hgt
    · intro hlt
      have hne := h4 hlt
      obtain ⟨last, hl⟩ := Option.isSome_iff_exists.mp (List.getLast?_isSome.mpr hne)
      rw [isOrganicView_of_last vt req since last hl, h3 last hl, hw, decide_eq_false_iff_not]
      omega

theorem key_step (w : Int) (key : String) (s : RunState) (st : Step) (c : Int)
    (hw : window s.vt = w) (hdb : ∀ q a, s.vt.db q a = none)
    (hkey : ∀ k, st.key = some k → k = key)
    (hchain : List.Chain (fun x y => x ≤ y) c st.readings)
    (hinv : KeyInv w key s.calls s.vt c)
    (hhead : ∀ first, s.calls.head? = some first → first.incremented = true)
    (hlink : s.calls.Chain' (fun a b =>
      (b.since - a.time > w → b.incremented = true) ∧
        (b.since - a.time < w → b.incremented = false))) :
    KeyInv w key (stepRun s st).calls (stepRun s st).vt (clockAfter c st.readings) ∧
    (∀ first, (stepRun s st).calls.head? = some first → first.incremented = true) ∧
    (stepRun s st).calls.Chain' (fun a b =>
      (b.since - a.time > w → b.incremented = true) ∧
        (b.since - a.time < w → b.incremented = false)) := by
  cases st with
  | sweep t =>
    simp only [Step.readings, List.chain_cons] at hchain
    refine ⟨?_, hhead, hlink⟩
    simp only [stepRun, Step.readings, clockAfter, List.foldl_cons, List.foldl_nil]
    rw [← hw]
    exact keyInv_sweep key s.calls s.vt c t hchain.1 (hw ▸ hinv)
  | view r tableName id now since pre mid =>
    have hk : viewKey (mkRequest r tableName id now) = key := hkey _ rfl
    rw [stepRun_view_ok s r tableName id now since pre mid hdb]
    simp only [Step.readings, List.chain_cons] at hchain
    obtain ⟨hcnow, hrest⟩ := hchain
    obtain ⟨hpre, hrest⟩ := chain_append_clock pre now (since :: mid) hrest
    rw [List.chain_cons] at hrest
    obtain ⟨hsince, hmid⟩ := hrest
    have hclock : clockAfter c (now :: (pre ++ since :: mid)) = clockAfter since mid := by
      simp [clockAfter, List.foldl_append]
    have hnowpre := le_clockAfter pre now hpre
    have hsincemid := le_clockAfter mid since hmid
    have hinv0 := keyInv_mono w key s.calls s.vt c now hcnow hinv
    have hinv1 := keyInv_sweeps key s.calls w pre s.vt now hw hpre hinv0
    have hinv2 := keyInv_mono w key s.calls _ _ since hsince hinv1
    have hw1 : window (runSweeps s.vt pre) = w := by
      rw [← hw]; exact window_congr _ _ (runSweeps_fields pre s.vt).2
    have hinv3 := keyInv_sweeps key s.calls w mid (runSweeps s.vt pre) since hw1 hmid hinv2
    rw [runSweeps_append] at hinv3
    have hold : ∀ a, s.calls.getLast? = some a →
        a.time ≤ (mkRequest r tableName id now).Timestamp := by
      intro a ha
      have := (hinv.2 a ha).1
      show a.time ≤ now
      omega
    rw [← hk] at hinv3 hinv2
    have hinv4 := keyInv_track w s.calls (runSweeps s.vt (pre ++ mid)) (clockAfter since mid)
      (mkRequest r tableName id now) since
      (IsOrganicView (runSweeps s.vt pre) (mkRequest r tableName id now) since) hold
      (by show now ≤ clockAfter since mid; omega) hinv3
    have hdec := keyInv_decision w s.calls (runSweeps s.vt pre) since
      (mkRequest r tableName id now) hw1 hinv2
    refine ⟨?_, ?_, ?_⟩
    · show KeyInv w key _ _ (clockAfter c (now :: (pre ++ since :: mid)))
      rw [hclock, ← hk]
      exact hinv4
    · intro first hfirst
      simp only [List.head?_append, List.head?_cons] at hfirst
      cases hh : s.calls.head? with
      | none =>
        rw [hh] at hfirst
        have hfirst : _ = first := Option.some.inj hfirst
        rw [← hfirst]
        have hnil : s.calls = [] := List.head?_eq_none_iff.mp hh
        exact hdec.1 (by rw [hnil]; rfl)
      | some f =>
        rw [hh] at hfirst
        have hfirst : f = first := Option.some.inj hfirst
        rw [← hfirst]
        exact hhead f hh
    · rw [List.chain'_append]
      refine ⟨hlink, List.chain'_singleton _, ?_⟩
      intro a ha b hb
      simp only [List.head?_cons, Option.mem_def, Option.some.injEq] at hb
      subst hb
      exact hdec.2 a ha

theorem key_run (w : Int) (key : String) (steps : List Step) :
    ∀ (s : RunState) (c : Int), window s.vt = w → (∀ q a, s.vt.db q a = none) →
      (∀ st ∈ steps, ∀ k, st.key = some k → k = key) →
      List.Chain (fun x y => x ≤ y) c (readingsOf steps) →
      KeyInv w key s.calls s.vt c →
      (∀ first, s.calls.head? = some first → first.incremented = true) →
      s.calls.Chain' (fun a b =>
        (b.since - a.time > w → b.incremented = true) ∧
          (b.since - a.time < w → b.incremented = false)) →
      (∀ first, (steps.foldl stepRun s).calls.head? = some first →
        first.incremented = true) ∧
      (steps.foldl stepRun s).calls.Chain' (fun a b =>
        (b.since - a.time > w → b.incremented = true) ∧
          (b.since - a.time < w → b.incremented = false)) := by
  induction steps with
  | nil => intro s c _ _ _ _ _ hhead hlink; exact ⟨hhead, hlink⟩
  | cons st rest ih =>
    intro s c hw hdb hkey hchain hinv hhead hlink
    simp only [readingsOf] at hchain
    obtain ⟨h1, h2⟩ := chain_append_clock st.readings c (readingsOf rest) hchain
    obtain ⟨hinv2, hhead2, hlink2⟩ := key_step w key s st c hw hdb
      (hkey st (List.mem_cons_self _ _)) h1 hinv hhead hlink
    have hf := stepRun_fields s st
    rw [List.foldl_cons]
    refine ih (stepRun s st) (clockAfter c st.readings) ?_ ?_ ?_ h2 hinv2 hhead2 hlink2
    · rw [← hw]; exact window_congr _ _ hf.2
    · intro q a; rw [hf.1]; exact hdb q a
    · exact fun x hx => hkey x (List.mem_cons_of_mem _ hx)

theorem runSweeps_sublist (times : List Int) (vt : ViewTracker) (key : String) :
    List.Sublist (mapIndex (runSweeps vt times).viewHistory key)
      (mapIndex vt.viewHistory key) := by
  induction times generalizing vt with
  | nil => exact List.Sublist.refl _
  | cons t rest ih =>
    refine (ih (cleanOldRecords vt t)).trans ?_
    rw [mapIndex_cleanOldRecords]
    exact List.filter_sublist _

theorem run_sublist (key : String) (steps : List Step) :
    ∀ s : RunState, (∀ q a, s.vt.db q a = none) →
      (∀ st ∈ steps, ∀ k, st.key = some k → k = key) →
      List.Sublist (mapIndex (steps.foldl stepRun s).vt.viewHistory key)
        (mapIndex s.vt.viewHistory key ++ steps.filterMap Step.event) := by
  induction steps with
  | nil => intro s _ _; simp
  | cons st rest ih =>
    intro s hdb hkey
    have hf := stepRun_fields s st
    have hdb2 : ∀ q a, (stepRun s st).vt.db q a = none := by
      intro q a; rw [hf.1]; exact hdb q a
    have hrest := ih (stepRun s st) hdb2 (fun x hx => hkey x (List.mem_cons_of_mem _ hx))
    rw [List.foldl_cons]
    refine hrest.trans ?_
    cases st with
    | sweep t =>
      simp only [stepRun, List.filterMap_cons, Step.event]
      refine List.Sublist.append ?_ (List.Sublist.refl _)
      rw [mapIndex_cleanOldRecords]
      exact List.filter_sublist _
    | view r tableName id now since pre mid =>
      have hk : viewKey (mkRequest r tableName id now) = key :=
        hkey _ (List.mem_cons_self _ _) _ rfl
      rw [stepRun_view_ok s r tableName id now since pre mid hdb]
      simp only [List.filterMap_cons, Step.event]
      rw [← hk, mapIndex_TrackView_self, List.append_assoc, List.singleton_append]
      exact List.Sublist.append (runSweeps_sublist _ _ _) (List.Sublist.refl _)

theorem quiet_run (key : String) (steps : List Step) :
    ∀ s : RunState, (∀ q a, s.vt.db q a = none) →
      (∀ st ∈ steps, st.key = some key ∧ st.sweeps = []) →
      (steps.foldl stepRun s).calls.map (fun c => c.incremented) =
        s.calls.map (fun c => c.incremented) ++
          specDecisions (window s.vt)
            ((mapIndex s.vt.viewHistory key).getLast?.map (fun e => e.Timestamp))
            (steps.filterMap Step.times) ∧
      mapIndex (steps.foldl stepRun s).vt.viewHistory key =
        mapIndex s.vt.viewHistory key ++ steps.filterMap Step.event := by
  induction steps with
  | nil => intro s _ _; simp [specDecisions]
  | cons st rest ih =>
    intro s hdb hkey
    have hst := hkey st (List.mem_cons_self _ _)
    have hf := stepRun_fields s st
    have hw : window (stepRun s st).vt = window s.vt := window_congr _ _ hf.2
    have hdb2 : ∀ q a, (stepRun s st).vt.db q a = none := by
      intro q a; rw [hf.1]; exact hdb q a
    obtain ⟨ih1, ih2⟩ := ih (stepRun s st) hdb2
      (fun x hx => hkey x (List.mem_cons_of_mem _ hx))
    cases st with
    | sweep t => simp [Step.key] at hst
    | view r tableName id now since pre mid =>
      obtain ⟨hk, hquiet⟩ := hst
      simp only [Step.key, Option.some.injEq] at hk
      simp only [Step.sweeps, List.append_eq_nil] at hquiet
      obtain ⟨hpre, hmid⟩ := hquiet
      subst hpre hmid
      rw [List.foldl_cons, ih1, ih2, hw]
      rw [stepRun_view_ok s r tableName id now since [] [] hdb]
      have hts : (mkRequest r tableName id now).Timestamp = now := rfl
      have hnone : runSweeps s.vt [] = s.vt := rfl
      have hnone2 : runSweeps s.vt ([] ++ []) = s.vt := rfl
      constructor
      · simp only [← hk, hnone, hnone2, mapIndex_TrackView_self, List.getLast?_concat,
          Option.map_some', List.map_append, List.map_cons, List.map_nil, Step.times,
          List.filterMap_cons, List.append_assoc, List.singleton_append, hts]
        congr 1
        cases hl : (mapIndex s.vt.viewHistory
            (viewKey (mkRequest r tableName id now))).getLast? with
        | none =>
          have hnil : mapIndex s.vt.viewHistory (viewKey (mkRequest r tableName id now)) = [] :=
            List.getLast?_eq_none_iff.mp hl
          simp only [Option.map_none', specDecisions, isOrganicView_of_nil _ _ _ hnil]
        | some last =>
          simp only [Option.map_some', specDecisions,
            isOrganicView_of_last _ _ _ last hl]
      · simp only [← hk, hnone2, mapIndex_TrackView_self, List.filterMap_cons, Step.event,
          List.append_assoc, List.singleton_append]

/-- C5, as the code has it: in a run from an empty store of `HandleView` calls
for one key, with successful increments, the sweeps they start running in any
order under a non-decreasing clock, the first call is organic, and each later
call is decided against the history left before it: it is organic when the time
from the stamp of the call just before it (organic or not) to its own decision is
strictly greater than the window, and not organic when that time is less than the
window. The history of the key holds, in call order, the events no sweep has
purged. While no sweep has run, a call at exactly the window is not organic
either, and the history holds every event. -/
theorem views_of_one_key (db : DBExecutor) (gap : Int) (key : String) (steps : List Step)
    (hdb : ∀ q a, db q a = none)
    (hkey : ∀ st ∈ steps, st.key = some key ∨ st.key = none)
    (hmono : (readingsOf steps).Pairwise (fun x y => x ≤ y)) :
    (∀ first, (run ⟨[], db, gap⟩ steps).calls.head? = some first →
      first.incremented = true) ∧
    (run ⟨[], db, gap⟩ steps).calls.Chain' (fun a b =>
      (b.since - a.time > window ⟨[], db, gap⟩ → b.incremented = true) ∧
        (b.since - a.time < window ⟨[], db, gap⟩ → b.incremented = false)) ∧
    List.Sublist (mapIndex (run ⟨[], db, gap⟩ steps).vt.viewHistory key)
      (steps.filterMap Step.event) ∧
    ((∀ st ∈ steps, st.key = some key ∧ st.sweeps = []) →
      (run ⟨[], db, gap⟩ steps).calls.map (fun c => c.incremented) =
        specDecisions (window ⟨[], db, gap⟩) none (steps.filterMap Step.times) ∧
      mapIndex (run ⟨[], db, gap⟩ steps).vt.viewHistory key =
        steps.filterMap Step.event) := by
  have hkey2 : ∀ st ∈ steps, ∀ k, st.key = some k → k = key := by
    intro st hst k hk
    rcases hkey st hst with h | h
    · rw [h] at hk; exact (Option.some.inj hk).symm
    · rw [h] at hk; simp at hk
  have hinit : ∀ c, KeyInv (window ⟨[], db, gap⟩) key [] ⟨[], db, gap⟩ c := by
    intro c
    refine ⟨fun _ => rfl, ?_⟩
    intro a ha
    simp at ha
  have hmain : (∀ first, (run ⟨[], db, gap⟩ steps).calls.head? = some first →
        first.incremented = true) ∧
      (run ⟨[], db, gap⟩ steps).calls.Chain' (fun a b =>
        (b.since - a.time > window ⟨[], db, gap⟩ → b.incremented = true) ∧
          (b.since - a.time < window ⟨[], db, gap⟩ → b.incremented = false)) := by
    cases hr : readingsOf steps with
    | nil =>
      refine key_run _ key steps ⟨⟨[], db, gap⟩, []⟩ 0 rfl hdb hkey2 ?_ (hinit 0) ?_ ?_
      · rw [hr]; exact List.Chain.nil
      · intro first hf; simp at hf
      · exact List.chain'_nil
    | cons t rest =>
      refine key_run _ key steps ⟨⟨[], db, gap⟩, []⟩ t rfl hdb hkey2 ?_ (hinit t) ?_ ?_
      · apply chain_of_pairwise _ hmono
        rw [hr]
        intro x hx
        simp only [List.head?_cons, Option.mem_def, Option.some.injEq] at hx
        omega
      · intro first hf; simp at hf
      · exact List.chain'_nil
  refine ⟨hmain.1, hmain.2, ?_, ?_⟩
  · have h := run_sublist key steps ⟨⟨[], db, gap⟩, []⟩ hdb hkey2
    simpa [run, mapIndex, mapGet] using h
  · intro hquiet
    have h := quiet_run key steps ⟨⟨[], db, gap⟩, []⟩ hdb hquiet
    simpa [run, mapIndex, mapGet] using h

theorem views_of_one_key_witness :
    (∀ q a, okDB q a = none) ∧
    (∀ st ∈ scenarioSteps, st.key = some sampleKey ∧ st.sweeps = []) ∧
    (readingsOf scenarioSteps).Pairwise (fun x y => x ≤ y) ∧
    window ⟨[], okDB, 30⟩ = 30 * 60000000000 ∧
    specDecisions (window ⟨[], okDB, 30⟩) none (scenarioSteps.filterMap Step.times) =
      [true, false, false] ∧
    scenarioSteps.filterMap Step.event =
      [sampleEvent 0, sampleEvent 600000000000, sampleEvent 1860000000000] ∧
    ((run ⟨[], okDB, 30⟩ scenarioSteps).calls.map (fun c => c.incremented) =
        specDecisions (window ⟨[], okDB, 30⟩) none (scenarioSteps.filterMap Step.times) ∧
      mapIndex (run ⟨[], okDB, 30⟩ scenarioSteps).vt.viewHistory sampleKey =
        scenarioSteps.filterMap Step.event) ∧
    (∀ st ∈ sweptScenarioSteps, st.key = some sampleKey ∨ st.key = none) ∧
    (readingsOf sweptScenarioSteps).Pairwise (fun x y => x ≤ y) ∧
    (run ⟨[], okDB, 30⟩ sweptScenarioSteps).calls.Chain' (fun a b =>
      (b.since - a.time > window ⟨[], okDB, 30⟩ → b.incremented = true) ∧
        (b.since - a.time < window ⟨[], okDB, 30⟩ → b.incremented = false)) ∧
    List.Sublist (mapIndex (run ⟨[], okDB, 30⟩ sweptScenarioSteps).vt.viewHistory sampleKey)
      (sweptScenarioSteps.filterMap Step.event) ∧
    mapIndex (run ⟨[], okDB, 30⟩ sweptScenarioSteps).vt.viewHistory sampleKey =
      [sampleEvent 600000000000, sampleEvent 1860000000000] :=
  ⟨fun _ _ => rfl, by decide, by decide, by decide, by decide, by decide,
    (views_of_one_key okDB 30 sampleKey scenarioSteps (fun _ _ => rfl)
      (fun st hst => Or.inl ((by decide :
        ∀ st ∈ scenarioSteps, st.key = some sampleKey ∧ st.sweeps = []) st hst).1)
      (by decide)).2.2.2 (by decide),
    by decide, by decide,
    (views_of_one_key okDB 30 sampleKey sweptScenarioSteps (fun _ _ => rfl) (by decide)
      (by decide)).2.1,
    (views_of_one_key okDB 30 sampleKey sweptScenarioSteps (fun _ _ => rfl) (by decide)
      (by decide)).2.2.1,
    by decide⟩

/-- C5 fails as stated: with a thirty-minute window, views of one key at 0, 10
and 31 minutes are judged organic, not organic, not organic, whether the sweeps
the calls start have run or not. The third view comes 21 minutes after the
second, which was recorded although it was not organic. And once the sweep of
the third call has run, the event at 0 is no longer recorded. -/
theorem scenario_third_view_not_organic :
    window ⟨[], okDB, 30⟩ = 30 * 60000000000 ∧
    scenarioSteps.filterMap Step.times =
      [(0, 0), (10 * 60000000000, 10 * 60000000000),
        (31 * 60000000000, 31 * 60000000000)] ∧
    (run ⟨[], okDB, 30⟩ scenarioSteps).calls =
      [⟨sampleKey, 0, 0, true⟩, ⟨sampleKey, 600000000000, 600000000000, false⟩,
        ⟨sampleKey, 1860000000000, 1860000000000, false⟩] ∧
    (run ⟨[], okDB, 30⟩ scenarioSteps).calls.map (fun c => c.incremented) ≠
      [true, false, true] ∧
    (run ⟨[], okDB, 30⟩ sweptScenarioSteps).calls.map (fun c => c.incremented) =
      [true, false, false] ∧
    mapIndex (run ⟨[], okDB, 30⟩ sweptScenarioSteps).vt.viewHistory sampleKey =
      [sampleEvent 600000000000, sampleEvent 1860000000000] := by
  decide


end Viewscount
